import Mathlib

/-! DigiByte-Core/Transaction: opcode table, payment run-skip codec, encode/decode
facade, mutators.

A shallow embedding of `src/Transaction.js`.

Modelling conventions.

* A JavaScript payment object is a record of its known keys.  A key that is
  absent and a key whose value is `undefined` are both `none`: every read in the
  program is a property read, which cannot tell them apart.
* `input`, `amount`, `range`, `percent`, `burn`, `skip` hold the values the
  data model gives them (non-negative integer, integer, booleans).  `output` is
  the one field the program computes with (`payment.output += shiftAmount`), so
  its values are the JavaScript numbers an integer computation can produce,
  `NaN` included, and `null`, which `JSON.stringify` writes for `NaN`.
* `Array.prototype.sort` is the stable sort of ECMAScript 2019 and later; a
  comparator result of `NaN` counts as `0`.
* The two payload encoders (`digiasset-issuance-encoder`,
  `digiasset-transfer-encoder`) are external libraries and enter as parameters.
-/

namespace Transaction

/-! ## Data model -/

/-- Values of the `output` key: an integer, `NaN`, or `null`. -/
inductive JsNum where
  | num (n : Int)
  | nan
  | null
  deriving DecidableEq, Repr

/-- A payment object, in either form: the input-indexed form carries `input`,
the run-skip form carries `skip`. -/
structure Payment where
  input : Option Nat := none
  amount : Option Int := none
  output : Option JsNum := none
  range : Option Bool := none
  percent : Option Bool := none
  burn : Option Bool := none
  skip : Option Bool := none
  deriving DecidableEq, Repr

/-- JavaScript truthiness of a boolean-or-undefined value. -/
def truthy (b : Option Bool) : Bool :=
  match b with
  | some true => true
  | _ => false

/-- What `JSON.parse(JSON.stringify(v))` gives back for the value of `output`:
`NaN` is written as `null`, everything else is kept. -/
def jsonCloneNum (v : JsNum) : JsNum :=
  match v with
  | JsNum.nan => JsNum.null
  | v => v

/-- The copy of one payment made by `JSON.parse(JSON.stringify(...))`. -/
def jsonClone (p : Payment) : Payment :=
  { p with output := p.output.map jsonCloneNum }

/-! ## Payment run-skip codec -/

/-- The comparator `(a, b) => a.input - b.input`; `none` is `NaN`. -/
def compareInput (a b : Payment) : Option Int :=
  match a.input, b.input with
  | some x, some y => some ((x : Int) - (y : Int))
  | _, _ => none

/-- Whether the sort must place `a` after `b`: the comparator is positive
(`NaN` counts as `0`). -/
def sortsAfter (a b : Payment) : Bool :=
  match compareInput a b with
  | some v => decide (0 < v)
  | none => false

/-- Insertion of `a` in front of a sorted list: `a` moves right past exactly
the elements it must come after, so it stays in front of its equals. -/
def orderedInsert (a : Payment) : List Payment → List Payment
  | [] => [a]
  | b :: l => if sortsAfter a b then b :: orderedInsert a l else a :: b :: l

/-- The stable sort `result.sort((a, b) => a.input - b.input)`. -/
def sortByInput (l : List Payment) : List Payment :=
  l.foldr orderedInsert []

/-- The comparison `x > y` on inputs; it is false when either is `undefined`. -/
def jsGt (x y : Option Nat) : Bool :=
  match x, y with
  | some a, some b => decide (b < a)
  | _, _ => false

/-- The loop of `paymentsInputToSkip` (lines 38-45).  Iteration `i` reads
`result[i + 1].input` and `result[i].input`, both still present since only
`result[0..i-1]` have lost their `input`, then deletes `result[i].input` and
sets `result[i].skip`. -/
def skipLoop : List Payment → List Payment
  | [] => []
  | p :: rest =>
    let skip : Bool :=
      match rest with
      | q :: _ => jsGt q.input p.input
      | [] => false
    { p with input := none, skip := some skip } :: skipLoop rest

/-- The function `paymentsInputToSkip`: deep copy, sort by input, then the skip loop. -/
def paymentsInputToSkip (payments : List Payment) : List Payment :=
  skipLoop (sortByInput (payments.map jsonClone))

/-- The object built for one payment in `paymentsSkipToInput` (lines 53-56). -/
def decodePayment (p : Payment) (input : Nat) : Payment :=
  let base : Payment :=
    if truthy p.burn then { burn := some true }
    else { range := p.range, output := p.output }
  { base with input := some input, percent := p.percent, amount := p.amount }

/-- The loop of `paymentsSkipToInput` with its running counter `input`. -/
def expandLoop (input : Nat) : List Payment → List Payment
  | [] => []
  | p :: rest =>
    decodePayment p input :: expandLoop (if truthy p.skip then input + 1 else input) rest

/-- The function `paymentsSkipToInput`: the counter starts at `0`. -/
def paymentsSkipToInput (payments : List Payment) : List Payment :=
  expandLoop 0 payments

/-! ## Opcode table -/

/-- The two external payload encoders required by `OP_CODES`. -/
inductive EncoderId where
  | issuanceEncoder
  | transferEncoder
  deriving DecidableEq, Repr

/-- One declaration of `OP_CODES`: the transaction type (the key), the byte
range and the encoder. -/
structure OpCode where
  type : String
  start : Nat
  stop : Nat
  encoder : EncoderId
  deriving DecidableEq, Repr

/-- The object literal `OP_CODES`, in key order (`stop` is the key `end`). -/
def OP_CODES : List OpCode :=
  [ { type := "issuance", start := 0x00, stop := 0x0f, encoder := EncoderId.issuanceEncoder },
    { type := "transfer", start := 0x10, stop := 0x1f, encoder := EncoderId.transferEncoder },
    { type := "burn", start := 0x20, stop := 0x2f, encoder := EncoderId.transferEncoder } ]

/-- The property read `OP_CODES[type]`. -/
def opCodeOf (type : String) : Option OpCode :=
  OP_CODES.find? (fun o => o.type == type)

/-- An entry of `encodingLookup`: which encoder's `encode` and `decode` it
holds, and the transaction type. -/
structure LookupEntry where
  encoder : EncoderId
  type : String
  deriving DecidableEq, Repr

/-- The lookup object: key `j` to its entry, if it has one. -/
abbrev LookupTable := Nat → Option LookupEntry

/-- The assignment `encodingLookup[j] = ...`, replacing any earlier entry. -/
def LookupTable.set (t : LookupTable) (j : Nat) (e : LookupEntry) : LookupTable :=
  fun k => if k = j then some e else t k

/-- The inner loop `for (j = start; j <= end; j++)` for one declaration. -/
def fillRange (t : LookupTable) (o : OpCode) : LookupTable :=
  (List.range (o.stop + 1 - o.start)).foldl
    (fun t i => t.set (o.start + i) { encoder := o.encoder, type := o.type }) t

/-- The table `encodingLookup` as built at load time (lines 22-31). -/
def encodingLookup : LookupTable :=
  OP_CODES.foldl fillRange (fun _ => none)

/-- The read `encodingLookup[op_return[3]]`: an index past the end of the
buffer reads `undefined`, which is no key of the table. -/
def lookupByte (b : Option Nat) : Option LookupEntry :=
  match b with
  | some j => encodingLookup j
  | none => none

/-! ## Transaction descriptor -/

def PROTOCOL : Nat := 0x4441
def VERSION : Nat := 0x02
def MAXBYTESIZE : Nat := 80

/-- The fields of a `Transaction` object. -/
structure Tx where
  type : String
  noRules : Bool
  payments : List Payment
  protocol : Nat
  version : Nat
  lockStatus : Option Bool
  aggregationPolicy : String
  divisibility : Option Nat
  multiSig : List (Nat × String)
  amount : Option Int
  sha2 : Option (List Nat)
  torrentHash : Option (List Nat)
  deriving DecidableEq, Repr

/-- The argument `data` of the constructor: every key may be missing. -/
structure TxData where
  type : Option String := none
  noRules : Option Bool := none
  payments : Option (List Payment) := none
  protocol : Option Nat := none
  version : Option Nat := none
  lockStatus : Option Bool := none
  aggregationPolicy : Option String := none
  divisibility : Option Nat := none
  multiSig : Option (List (Nat × String)) := none
  amount : Option Int := none
  sha2 : Option (List Nat) := none
  torrentHash : Option (List Nat) := none
  deriving DecidableEq, Repr

/-- The operator `s || d` on a string-or-undefined: the empty string is falsy. -/
def orString (s : Option String) (d : String) : String :=
  match s with
  | some v => if v = "" then d else v
  | none => d

/-- The operator `n || d` on a number-or-undefined: zero is falsy. -/
def orNat (n : Option Nat) (d : Nat) : Nat :=
  match n with
  | some v => if v = 0 then d else v
  | none => d

/-- The constructor `Transaction(data)` (lines 63-77).  `data.noRules || true`
is `true` for every boolean; an array is truthy even when empty. -/
def mkTransaction (data : TxData) : Tx :=
  { type := orString data.type "transfer"
    noRules := true
    payments := data.payments.getD []
    protocol := orNat data.protocol PROTOCOL
    version := orNat data.version VERSION
    lockStatus := data.lockStatus
    aggregationPolicy := orString data.aggregationPolicy "aggregatable"
    divisibility := data.divisibility
    multiSig := data.multiSig.getD []
    amount := data.amount
    sha2 := data.sha2
    torrentHash := data.torrentHash }

/-- The factory `Transaction.newTransaction(protocol, version)`. -/
def newTransaction (protocol version : Option Nat) : Tx :=
  mkTransaction { protocol := protocol, version := version }

/-! ## External payload codec -/

/-- Errors a call can raise. -/
inductive JsError where
  | typeError
  | codecError (message : String)
  | error (message : String)
  deriving DecidableEq, Repr

/-- What an encoder's `decode` returns: the decoded fields, among them always
a payments list in run-skip form (the encoders' interface). -/
structure RawData where
  payments : List Payment
  type : Option String := none
  protocol : Option Nat := none
  version : Option Nat := none
  lockStatus : Option Bool := none
  aggregationPolicy : Option String := none
  divisibility : Option Nat := none
  multiSig : Option (List (Nat × String)) := none
  amount : Option Int := none
  sha2 : Option (List Nat) := none
  torrentHash : Option (List Nat) := none
  noRules : Option Bool := none
  deriving DecidableEq, Repr

/-- One external encoder module: `encode(descriptor, maxBytes)` and
`decode(bytes)`, each of which may throw. -/
structure Encoder where
  encode : Tx → Nat → Except JsError (List Nat)
  decode : List Nat → Except JsError RawData

/-- The two `require`d encoder modules. -/
structure Codecs where
  issuance : Encoder
  transfer : Encoder

/-- The module an `EncoderId` names. -/
def Codecs.get (c : Codecs) : EncoderId → Encoder
  | EncoderId.issuanceEncoder => c.issuance
  | EncoderId.transferEncoder => c.transfer

/-! ## Encode / decode facade -/

/-- The object handed to the constructor by `fromHex`: the decoded fields with
`type` and `payments` overwritten (lines 85-86). -/
def rawToData (r : RawData) (type : String) : TxData :=
  { type := some type
    noRules := r.noRules
    payments := some (paymentsSkipToInput r.payments)
    protocol := r.protocol
    version := r.version
    lockStatus := r.lockStatus
    aggregationPolicy := r.aggregationPolicy
    divisibility := r.divisibility
    multiSig := r.multiSig
    amount := r.amount
    sha2 := r.sha2
    torrentHash := r.torrentHash }

/-- The function `Transaction.fromHex` on a buffer (lines 83-87).  Reading `.decode` of a
missing table entry throws a `TypeError`. -/
def fromHex (c : Codecs) (op_return : List Nat) : Except JsError Tx :=
  match lookupByte op_return[3]? with
  | none => Except.error JsError.typeError
  | some decoder =>
    match (c.get decoder.encoder).decode op_return with
    | Except.error e => Except.error e
    | Except.ok rawData => Except.ok (mkTransaction (rawToData rawData decoder.type))

/-- The keys every object literal inherits from `Object.prototype`: for these
`OP_CODES[type]` is an object or function without an `encoder`. -/
def objectPrototypeKeys : List String :=
  ["constructor", "toString", "toLocaleString", "valueOf", "hasOwnProperty",
   "isPrototypeOf", "propertyIsEnumerable", "__proto__", "__defineGetter__",
   "__defineSetter__", "__lookupGetter__", "__lookupSetter__"]

/-- The method `Transaction.prototype.encode` (lines 150-156) as a state transformer: the
descriptor after the call, and the returned bytes or the raised error.  Line
151 throws, before anything is assigned, when `OP_CODES[this.type]` is
`undefined`; for an inherited key it reads `undefined` as the encoder, and the
call on line 153 throws.  An error on line 153 leaves the method after line
152 took effect. -/
def encode (c : Codecs) (t : Tx) : Tx × Except JsError (List Nat) :=
  match opCodeOf t.type with
  | none =>
    if t.type ∈ objectPrototypeKeys then
      ({ t with payments := paymentsInputToSkip t.payments }, Except.error JsError.typeError)
    else (t, Except.error JsError.typeError)
  | some op =>
    let t1 : Tx := { t with payments := paymentsInputToSkip t.payments }
    match (c.get op.encoder).encode t1 MAXBYTESIZE with
    | Except.error e => (t1, Except.error e)
    | Except.ok result => ({ t1 with payments := paymentsSkipToInput t1.payments }, Except.ok result)

/-! ## Mutators

Each mutator is a state transformer: the descriptor after the call and, for
those that can throw, the raised error or normal return.  Numbers are doubles
with integer values; the one sum the program takes, in `shiftOutputs`, is
rounded as a sum of doubles is. -/

/-- The method `addPayment` (lines 94-98): `range || false` and `percent || false`
are booleans. -/
def addPayment (t : Tx) (input : Option Nat) (amount : Option Int) (output : Option JsNum)
    (range percent : Option Bool) : Tx :=
  { t with
    payments := t.payments ++
      [{ input := input, amount := amount, output := output,
         range := some (truthy range), percent := some (truthy percent) }] }

/-- The method `addBurn` (lines 100-106). -/
def addBurn (t : Tx) (input : Option Nat) (amount : Option Int) (percent : Option Bool) :
    Tx × Except JsError Unit :=
  if t.type = "issuance" then
    (t, Except.error (JsError.error "Can't add burn payment to an issuance transaction"))
  else
    ({ t with
       payments := t.payments ++
         [{ input := input, amount := amount, percent := percent, burn := some true }]
       type := "burn" }, Except.ok ())

/-- The method `setAmount` (lines 112-117); `none` is an `undefined` argument. -/
def setAmount (t : Tx) (amount : Option Int) (divisibility : Option Nat) :
    Tx × Except JsError Unit :=
  match amount with
  | none => (t, Except.error (JsError.error "Amount has to be defined"))
  | some a =>
    ({ t with type := "issuance", divisibility := some (orNat divisibility 0), amount := some a },
     Except.ok ())

/-- The method `setLockStatus` (lines 119-122). -/
def setLockStatus (t : Tx) (lockStatus : Option Bool) : Tx :=
  { t with lockStatus := lockStatus, type := "issuance" }

/-- The method `setAggregationPolicy` (lines 124-127). -/
def setAggregationPolicy (t : Tx) (aggregationPolicy : Option String) : Tx :=
  { t with aggregationPolicy := orString aggregationPolicy "aggregatable", type := "issuance" }

/-- The method `allowRules` (lines 129-131). -/
def allowRules (t : Tx) : Tx :=
  { t with noRules := false }

/-- The operator `shiftAmount || 1` on an integer-or-undefined: zero is falsy. -/
def orInt (n : Option Int) (d : Int) : Int :=
  match n with
  | some v => if v = 0 then d else v
  | none => d

/-- The number of low bits a natural number has beyond the 53 a double keeps:
how often it must be halved to fall below `2 ^ 53`. -/
def excessBits : Nat → Nat → Nat
  | 0, _ => 0
  | fuel + 1, a => if a < 9007199254740992 then 0 else excessBits fuel (a / 2) + 1

/-- The double nearest to an integer, as IEEE 754 addition rounds an exact sum:
integers up to `2 ^ 53` in size are doubles; a larger one keeps its 53 leading
bits, rounded to nearest with ties to the even mantissa.  Beyond the largest
double (`2 ^ 1024 - 2 ^ 970` in size and above) JavaScript gives `Infinity`
or `-Infinity`; the values of `output` have no infinity, and the result is
given as `nan`, the non-finite value with which an infinity shares every later
step of the program (`JSON.stringify` writes `null` for it, adding an integer
gives it back). -/
def toDouble (x : Int) : JsNum :=
  if x.natAbs ≤ 9007199254740992 then JsNum.num x
  else
    let e := excessBits x.natAbs x.natAbs
    let q := x.natAbs / 2 ^ e
    let r := x.natAbs % 2 ^ e
    let q2 := if 2 ^ (e - 1) < r ∨ (r = 2 ^ (e - 1) ∧ q % 2 = 1) then q + 1 else q
    if e ≤ (if q2 < 9007199254740992 then 971 else 970) then
      JsNum.num (if x < 0 then -((q2 * 2 ^ e : Nat) : Int) else ((q2 * 2 ^ e : Nat) : Int))
    else JsNum.nan

/-- The value of `payment.output + shiftAmount`, `k` and `shiftAmount` being
the values of doubles: the sum of two numbers is their exact sum rounded to a
double, `undefined` and `NaN` give `NaN`, `null` counts as `0`. -/
def addToOutput (output : Option JsNum) (shiftAmount : Int) : JsNum :=
  match output with
  | some (JsNum.num k) => toDouble (k + shiftAmount)
  | some JsNum.null => toDouble shiftAmount
  | some JsNum.nan => JsNum.nan
  | none => JsNum.nan

/-- The method `shiftOutputs` (lines 133-138): the assignment
`payment.output += shiftAmount` is made on every payment.  The elements of
`payments` are objects of their own, as `addPayment`, `addBurn` and `fromHex`
build them. -/
def shiftOutputs (t : Tx) (shiftAmount : Option Int) : Tx :=
  { t with
    payments := t.payments.map (fun payment =>
      { payment with output := some (addToOutput payment.output (orInt shiftAmount 1)) }) }

/-- A hash argument: a buffer or a string of hexadecimal digits. -/
inductive HashArg where
  | buffer (bytes : List Nat)
  | hex (text : String)
  deriving DecidableEq, Repr

/-- The value of a hexadecimal digit. -/
def hexDigit (c : Char) : Option Nat :=
  if '0' ≤ c ∧ c ≤ '9' then some (c.toNat - 48)
  else if 'a' ≤ c ∧ c ≤ 'f' then some (c.toNat - 87)
  else if 'A' ≤ c ∧ c ≤ 'F' then some (c.toNat - 55)
  else none

/-- The bytes `Buffer.from(text, 'hex')` reads: pairs of digits up to the first
pair that is not hexadecimal. -/
def hexBytes : List Char → List Nat
  | a :: b :: rest =>
    match hexDigit a, hexDigit b with
    | some x, some y => (16 * x + y) :: hexBytes rest
    | _, _ => []
  | _ => []

/-- Truthiness of a hash argument: a buffer is truthy, a string unless empty. -/
def HashArg.truthy : Option HashArg → Bool
  | some (HashArg.buffer _) => true
  | some (HashArg.hex text) => decide (text ≠ "")
  | none => false

/-- The buffer a hash argument is stored as (lines 142 and 145). -/
def HashArg.toBuffer : HashArg → List Nat
  | HashArg.buffer bytes => bytes
  | HashArg.hex text => hexBytes text.toList

/-- The method `setHash` (lines 140-148). -/
def setHash (t : Tx) (torrentHash sha2 : Option HashArg) : Tx × Except JsError Unit :=
  match torrentHash with
  | none => (t, Except.error (JsError.error "Can't set hashes without the torrent hash"))
  | some th =>
    if HashArg.truthy (some th) then
      let t1 : Tx := { t with torrentHash := some th.toBuffer }
      match sha2 with
      | some sh =>
        if HashArg.truthy (some sh) then ({ t1 with sha2 := some sh.toBuffer }, Except.ok ())
        else (t1, Except.ok ())
      | none => (t1, Except.ok ())
    else (t, Except.error (JsError.error "Can't set hashes without the torrent hash"))

/-- A call of one of the mutators, with its arguments. -/
inductive Call where
  | addPayment (input : Option Nat) (amount : Option Int) (output : Option JsNum)
      (range percent : Option Bool)
  | addBurn (input : Option Nat) (amount : Option Int) (percent : Option Bool)
  | setAmount (amount : Option Int) (divisibility : Option Nat)
  | setLockStatus (lockStatus : Option Bool)
  | setAggregationPolicy (aggregationPolicy : Option String)
  | allowRules
  | shiftOutputs (shiftAmount : Option Int)
  | setHash (torrentHash sha2 : Option HashArg)
  deriving DecidableEq, Repr

/-- The descriptor after a call, whether the call returned or threw. -/
def Call.apply (t : Tx) : Call → Tx
  | Call.addPayment input amount output range percent =>
    Transaction.addPayment t input amount output range percent
  | Call.addBurn input amount percent => (Transaction.addBurn t input amount percent).1
  | Call.setAmount amount divisibility => (Transaction.setAmount t amount divisibility).1
  | Call.setLockStatus lockStatus => Transaction.setLockStatus t lockStatus
  | Call.setAggregationPolicy aggregationPolicy =>
    Transaction.setAggregationPolicy t aggregationPolicy
  | Call.allowRules => Transaction.allowRules t
  | Call.shiftOutputs shiftAmount => Transaction.shiftOutputs t shiftAmount
  | Call.setHash torrentHash sha2 => (Transaction.setHash t torrentHash sha2).1

/-- The descriptor after a sequence of calls. -/
def run (t : Tx) (calls : List Call) : Tx :=
  calls.foldl Call.apply t

/-! ## The compaction on a store of objects

`paymentsInputToSkip` sorts an array in place and deletes and sets keys of its
elements.  To tell what it does to its caller's array, the same function is
read again on a store: payment objects and arrays live at addresses, an array
holds the addresses of its elements. -/

/-- A store: the payment objects and the arrays of object addresses. -/
structure Heap where
  objs : List Payment
  arrs : List (List Nat)
  deriving DecidableEq, Repr

/-- The object at an address (an object without keys when there is none). -/
def objAt (objs : List Payment) (r : Nat) : Payment := (objs[r]?).getD {}

/-- The payments an array holds, in order. -/
def Heap.read (h : Heap) (a : Nat) : List Payment :=
  ((h.arrs[a]?).getD []).map (objAt h.objs)

/-- The insertion `orderedInsert` on addresses: the comparator reads the two objects. -/
def orderedInsertRef (objs : List Payment) (a : Nat) : List Nat → List Nat
  | [] => [a]
  | b :: l =>
    if sortsAfter (objAt objs a) (objAt objs b) then b :: orderedInsertRef objs a l
    else a :: b :: l

/-- The sort of line 35 on an array of addresses. -/
def sortRefs (objs : List Payment) (l : List Nat) : List Nat :=
  l.foldr (orderedInsertRef objs) []

/-- The loop of lines 38-45 over the array `result`: iteration `i` reads the
objects `result[i + 1]` and `result[i]` and writes the object `result[i]`. -/
def skipLoopH (objs : List Payment) : List Nat → List Payment
  | [] => objs
  | r :: rest =>
    let cur := objAt objs r
    let skip : Bool :=
      match rest with
      | r2 :: _ => jsGt (objAt objs r2).input cur.input
      | [] => false
    skipLoopH (objs.set r { cur with input := none, skip := some skip }) rest

/-- The function `paymentsInputToSkip` on the store: line 34 allocates the copies of the
elements and the array `result` of their addresses, line 35 sorts `result` in
place, the loop writes the copies.  Returns the store and the address of
`result`. -/
def paymentsInputToSkipH (h : Heap) (payments : Nat) : Heap × Nat :=
  let clones := (h.read payments).map jsonClone
  let objs1 := h.objs ++ clones
  let result := List.range' h.objs.length clones.length
  let sorted := sortRefs objs1 result
  ({ objs := skipLoopH objs1 sorted, arrs := h.arrs ++ [sorted] }, h.arrs.length)

/-! ## Vocabulary of the statements -/

/-- The input index of a payment (`0` when it has none). -/
def inputOf (p : Payment) : Nat := p.input.getD 0

/-- A payment value of the input-indexed form: it has an input index, no
`skip`, and its output is an integer or absent. -/
def InputIndexed (p : Payment) : Prop :=
  p.input ≠ none ∧ p.skip = none ∧ p.output ≠ some JsNum.nan ∧ p.output ≠ some JsNum.null

instance (p : Payment) : Decidable (InputIndexed p) := by
  unfold InputIndexed; infer_instance

/-- The shape of a payment object as `addBurn` and `addPayment` build it:
either `burn = true` with no `output` and no `range`, or no `burn` key. -/
def WellShaped (p : Payment) : Prop :=
  (p.burn = some true ∧ p.output = none ∧ p.range = none) ∨ p.burn = none

instance (p : Payment) : Decidable (WellShaped p) := by
  unfold WellShaped; infer_instance

/-- Ascending input order. -/
def SortedByInput (l : List Payment) : Prop :=
  l.Pairwise (fun a b => inputOf a ≤ inputOf b)

instance (l : List Payment) : Decidable (SortedByInput l) := by
  unfold SortedByInput; infer_instance

/-- The input indices in use are `0, 1, ..., k - 1` for some `k`: every index
below one in use is in use. -/
def DenseInputs (l : List Payment) : Prop :=
  ∀ p ∈ l, ∀ m, m < inputOf p → ∃ q ∈ l, inputOf q = m

/-- The place of a kind in the order `transfer < burn < issuance`. -/
def kindRank (type : String) : Nat :=
  if type = "issuance" then 2 else if type = "burn" then 1 else 0

/-- The shape invariant of the data model: a payment with `burn = true` has no
`output` and no `range`, and a payment with `output` or `range` has no `burn`. -/
def ShapeInvariant (p : Payment) : Prop :=
  (p.burn = some true → p.output = none ∧ p.range = none) ∧
  ((p.output ≠ none ∨ p.range ≠ none) → p.burn = none)

instance (p : Payment) : Decidable (ShapeInvariant p) := by
  unfold ShapeInvariant; infer_instance

/-- A payment value of the run-skip form: no input index, a boolean `skip`,
and an output that is an integer or absent. -/
def SkipForm (p : Payment) : Prop :=
  p.input = none ∧ p.skip ≠ none ∧ p.output ≠ some JsNum.nan ∧ p.output ≠ some JsNum.null

instance (p : Payment) : Decidable (SkipForm p) := by
  unfold SkipForm; infer_instance

/-- The number of distinct input indices in `l` that are strictly smaller than `n`. -/
def distinctBelow (l : List Payment) (n : Nat) : Nat :=
  ((l.map inputOf).dedup.filter (fun m => decide (m < n))).length

/-- The sequence with the `skip` of its last payment set to `false`. -/
def withLastSkipFalse : List Payment → List Payment
  | [] => []
  | [p] => [{ p with skip := some false }]
  | p :: q :: rest => p :: withLastSkipFalse (q :: rest)

/-- The normalisation `encode` applies to payments: expansion after compaction. -/
def normalise (P : List Payment) : List Payment :=
  paymentsSkipToInput (paymentsInputToSkip P)

/-- A payment with input `i`, amount `a` and output `o`, as `addPayment` builds it. -/
def samplePayment (i : Nat) (a o : Int) : Payment :=
  { input := some i, amount := some a, output := some (JsNum.num o),
    range := some false, percent := some false }

/-- A store with the caller's array at address `0` holding three payments. -/
def sampleHeap : Heap :=
  { objs := [samplePayment 1 5 0, samplePayment 0 7 1, samplePayment 1 3 2]
    arrs := [[0, 1, 2]] }

/-- A fresh transfer descriptor holding the given payments. -/
def sampleTx (payments : List Payment) : Tx :=
  mkTransaction { payments := some payments }

/-- An encoder module whose `encode` returns the given bytes and whose `decode`
returns the given fields. -/
def constEncoder (bytes : List Nat) (raw : RawData) : Encoder :=
  { encode := fun _ _ => Except.ok bytes, decode := fun _ => Except.ok raw }

/-- An encoder module whose `encode` and `decode` both throw. -/
def failingEncoder (message : String) : Encoder :=
  { encode := fun _ _ => Except.error (JsError.codecError message)
    decode := fun _ => Except.error (JsError.codecError message) }

/-- Encoders that succeed with fixed results. -/
def okCodecs : Codecs :=
  { issuance := constEncoder [0x44, 0x41, 0x02, 0x01] { payments := [] }
    transfer := constEncoder [0x44, 0x41, 0x02, 0x15]
      { payments := [{ amount := some 5, output := some (JsNum.num 1), range := some false,
                       percent := some false, skip := some true },
                     { amount := some 7, percent := some false, burn := some true,
                       skip := some false }]
        type := some "issuance" } }

/-- Encoders that always throw, as on an exceeded size budget. -/
def failCodecs : Codecs :=
  { issuance := failingEncoder "Data code is bigger than the allowed byte size"
    transfer := failingEncoder "Data code is bigger than the allowed byte size" }

/-! ## Lemmas on the sort and the two loops -/

theorem jsGt_iff (x y : Option Nat) :
    jsGt x y = true ↔ ∃ m n, y = some m ∧ x = some n ∧ m < n := by
  cases x <;> cases y <;> simp [jsGt]

theorem orderedInsert_length (a : Payment) (l : List Payment) :
    (orderedInsert a l).length = l.length + 1 := by
  induction l with
  | nil => rfl
  | cons b l ih =>
    unfold orderedInsert
    split <;> simp [ih]

theorem sortByInput_cons (a : Payment) (l : List Payment) :
    sortByInput (a :: l) = orderedInsert a (sortByInput l) := rfl

theorem sortByInput_length (l : List Payment) : (sortByInput l).length = l.length := by
  induction l with
  | nil => rfl
  | cons a l ih => rw [sortByInput_cons, orderedInsert_length, ih]; rfl

theorem skipLoop_length (l : List Payment) : (skipLoop l).length = l.length := by
  induction l with
  | nil => rfl
  | cons a l ih => simp [skipLoop, ih]

theorem paymentsInputToSkip_length (P : List Payment) :
    (paymentsInputToSkip P).length = P.length := by
  simp [paymentsInputToSkip, skipLoop_length, sortByInput_length]

/-- Element `i` of the skip loop's result, from elements `i` and `i + 1` of
its argument. -/
theorem skipLoop_getElem? (l : List Payment) (i : Nat) :
    (skipLoop l)[i]? = l[i]?.map (fun p =>
      { p with
        input := none
        skip := some (match l[i + 1]? with
          | some q => jsGt q.input p.input
          | none => false) }) := by
  induction l generalizing i with
  | nil => simp [skipLoop]
  | cons a l ih =>
    cases i with
    | zero => cases l <;> simp [skipLoop]
    | succ i => simp [skipLoop, ih]

/-- Sorting commutes with a map that keeps every `input`. -/
theorem orderedInsert_map (f : Payment → Payment) (hf : ∀ p, (f p).input = p.input)
    (a : Payment) (l : List Payment) :
    orderedInsert (f a) (l.map f) = (orderedInsert a l).map f := by
  induction l with
  | nil => rfl
  | cons b l ih =>
    have h : sortsAfter (f a) (f b) = sortsAfter a b := by
      simp [sortsAfter, compareInput, hf]
    simp only [List.map_cons, orderedInsert, h]
    split <;> simp [ih]

theorem sortByInput_map (f : Payment → Payment) (hf : ∀ p, (f p).input = p.input)
    (l : List Payment) : sortByInput (l.map f) = (sortByInput l).map f := by
  induction l with
  | nil => rfl
  | cons a l ih => rw [List.map_cons, sortByInput_cons, ih, orderedInsert_map f hf, sortByInput_cons]

theorem jsonClone_input (p : Payment) : (jsonClone p).input = p.input := rfl

/-- The compaction as the skip loop over the clones of the sorted payments. -/
theorem paymentsInputToSkip_eq (P : List Payment) :
    paymentsInputToSkip P = skipLoop ((sortByInput P).map jsonClone) := by
  rw [paymentsInputToSkip, sortByInput_map jsonClone jsonClone_input]

/-- Element `i` of the expansion loop started with counter `c`. -/
theorem expandLoop_getElem? (c : Nat) (l : List Payment) (i : Nat) :
    (expandLoop c l)[i]? = l[i]?.map (fun p =>
      decodePayment p (c + (l.take i).countP (fun q => decide (q.skip = some true)))) := by
  induction l generalizing c i with
  | nil => simp [expandLoop]
  | cons a l ih =>
    cases i with
    | zero => simp [expandLoop]
    | succ i =>
      simp only [expandLoop, List.getElem?_cons_succ, ih, List.take_succ_cons, List.countP_cons]
      cases hl : l[i]? with
      | none => simp
      | some p =>
        simp only [Option.map_some']
        congr 2
        rcases hs : a.skip with _ | _ | _ <;> simp [truthy]
        omega

theorem expandLoop_length (c : Nat) (l : List Payment) : (expandLoop c l).length = l.length := by
  induction l generalizing c with
  | nil => rfl
  | cons a l ih => simp [expandLoop, ih]

/-! ## The sort: permutation, order, stability -/

theorem orderedInsert_perm (a : Payment) (l : List Payment) :
    (orderedInsert a l).Perm (a :: l) := by
  induction l with
  | nil => exact List.Perm.refl _
  | cons b l ih =>
    unfold orderedInsert
    split
    · exact (List.Perm.cons b ih).trans (List.Perm.swap a b l)
    · exact List.Perm.refl _

theorem sortByInput_perm (l : List Payment) : (sortByInput l).Perm l := by
  induction l with
  | nil => exact List.Perm.refl _
  | cons a l ih =>
    rw [sortByInput_cons]
    exact (orderedInsert_perm a _).trans (List.Perm.cons a ih)

theorem mem_sortByInput {l : List Payment} {p : Payment} : p ∈ sortByInput l ↔ p ∈ l :=
  (sortByInput_perm l).mem_iff

theorem inputOf_eq_of_input {p : Payment} {n : Nat} (h : p.input = some n) : inputOf p = n := by
  simp [inputOf, h]

theorem input_eq_of_ne_none {p : Payment} (h : p.input ≠ none) : p.input = some (inputOf p) := by
  cases hp : p.input with
  | none => exact absurd hp h
  | some n => simp [inputOf, hp]

theorem sortsAfter_iff (a b : Payment) :
    sortsAfter a b = true ↔ ∃ m n, a.input = some m ∧ b.input = some n ∧ n < m := by
  rcases ha : a.input with _ | m <;> rcases hb : b.input with _ | n <;>
    simp [sortsAfter, compareInput, ha, hb]

theorem sortsAfter_lt {a b : Payment} (h : sortsAfter a b = true) : inputOf b < inputOf a := by
  obtain ⟨m, n, ha, hb, hlt⟩ := (sortsAfter_iff a b).mp h
  rw [inputOf_eq_of_input ha, inputOf_eq_of_input hb]
  exact hlt

theorem sortsAfter_of_lt {a b : Payment} (ha : a.input ≠ none) (hb : b.input ≠ none)
    (h : inputOf b < inputOf a) : sortsAfter a b = true :=
  (sortsAfter_iff a b).mpr ⟨_, _, input_eq_of_ne_none ha, input_eq_of_ne_none hb, h⟩

theorem orderedInsert_sorted (a : Payment) (l : List Payment) (ha : a.input ≠ none)
    (hl : ∀ b ∈ l, b.input ≠ none) (hs : SortedByInput l) :
    SortedByInput (orderedInsert a l) := by
  induction l with
  | nil => exact List.pairwise_singleton _ _
  | cons b l ih =>
    have hs2 := List.pairwise_cons.mp hs
    unfold orderedInsert
    split
    · rename_i hab
      refine List.pairwise_cons.mpr ⟨?_, ih (fun x hx => hl x (List.mem_cons_of_mem _ hx)) hs2.2⟩
      intro x hx
      rcases List.mem_cons.mp ((orderedInsert_perm a l).mem_iff.mp hx) with rfl | hx2
      · exact Nat.le_of_lt (sortsAfter_lt hab)
      · exact hs2.1 x hx2
    · rename_i hab
      have hle : inputOf a ≤ inputOf b := by
        by_contra hcon
        exact hab (sortsAfter_of_lt ha (hl b (List.mem_cons_self _ _)) (by omega))
      refine List.pairwise_cons.mpr ⟨?_, hs⟩
      intro x hx
      rcases List.mem_cons.mp hx with rfl | hx2
      · exact hle
      · exact Nat.le_trans hle (hs2.1 x hx2)

theorem sortByInput_sorted (l : List Payment) (hl : ∀ b ∈ l, b.input ≠ none) :
    SortedByInput (sortByInput l) := by
  induction l with
  | nil => exact List.Pairwise.nil
  | cons a l ih =>
    rw [sortByInput_cons]
    refine orderedInsert_sorted a _ (hl a (List.mem_cons_self _ _)) ?_
      (ih (fun x hx => hl x (List.mem_cons_of_mem _ hx)))
    intro x hx
    exact hl x (List.mem_cons_of_mem _ (mem_sortByInput.mp hx))

/-- Insertion does not reorder payments of one input index. -/
theorem orderedInsert_filter (a : Payment) (l : List Payment) (n : Nat) :
    (orderedInsert a l).filter (fun p => decide (inputOf p = n))
      = (a :: l).filter (fun p => decide (inputOf p = n)) := by
  induction l with
  | nil => rfl
  | cons b l ih =>
    unfold orderedInsert
    split
    · rename_i hab
      have hlt := sortsAfter_lt hab
      rw [List.filter_cons, ih]
      by_cases h1 : inputOf a = n
      · have h2 : ¬ inputOf b = n := by omega
        simp [List.filter_cons, h1, h2]
      · simp [List.filter_cons, h1]
    · rfl

theorem sortByInput_filter (l : List Payment) (n : Nat) :
    (sortByInput l).filter (fun p => decide (inputOf p = n))
      = l.filter (fun p => decide (inputOf p = n)) := by
  induction l with
  | nil => rfl
  | cons a l ih =>
    rw [sortByInput_cons, orderedInsert_filter, List.filter_cons, List.filter_cons, ih]

theorem sortByInput_of_sorted (l : List Payment) (hs : SortedByInput l) : sortByInput l = l := by
  induction l with
  | nil => rfl
  | cons a l ih =>
    have hs2 := List.pairwise_cons.mp hs
    rw [sortByInput_cons, ih hs2.2]
    cases l with
    | nil => rfl
    | cons b l =>
      have hle := hs2.1 b (List.mem_cons_self _ _)
      have hf : sortsAfter a b = false := by
        cases h : sortsAfter a b with
        | false => rfl
        | true => have := sortsAfter_lt h; omega
      simp [orderedInsert, hf]

theorem jsonClone_of_inputIndexed {p : Payment} (h : InputIndexed p) : jsonClone p = p := by
  obtain ⟨-, -, h1, h2⟩ := h
  rcases p with ⟨i, a, o, r, pc, b, s⟩
  cases o with
  | none => rfl
  | some v => cases v <;> simp_all [jsonClone, jsonCloneNum]

theorem map_jsonClone_of_inputIndexed (l : List Payment) (h : ∀ p ∈ l, InputIndexed p) :
    l.map jsonClone = l := by
  induction l with
  | nil => rfl
  | cons a l ih =>
    rw [List.map_cons, jsonClone_of_inputIndexed (h a (List.mem_cons_self _ _)),
      ih (fun x hx => h x (List.mem_cons_of_mem _ hx))]

/-! ## Round trip on the descriptor side -/

theorem decodePayment_strip (p : Payment) (c : Nat) (b : Bool) (hi : InputIndexed p)
    (hw : WellShaped p) (hc : p.input = some c) :
    decodePayment { p with input := none, skip := some b } c = p := by
  obtain ⟨-, hs, -, -⟩ := hi
  rcases p with ⟨i, a, o, r, pc, bn, s⟩
  simp only at hs hc
  subst hs hc
  rcases hw with ⟨h1, h2, h3⟩ | h1
  · simp only at h1 h2 h3
    subst h1 h2 h3
    rfl
  · simp only at h1
    subst h1
    rfl

theorem jsGt_eq_decide {p q : Payment} (hp : p.input ≠ none) (hq : q.input ≠ none) :
    jsGt q.input p.input = decide (inputOf p < inputOf q) := by
  rw [input_eq_of_ne_none hp, input_eq_of_ne_none hq]
  simp [jsGt, inputOf]

/-- The expansion loop started at `c` undoes the skip loop on payments in
ascending order whose inputs start at `c` and leave no gap. -/
theorem expandLoop_skipLoop (S : List Payment) (c : Nat)
    (hwf : ∀ p ∈ S, InputIndexed p ∧ WellShaped p) (hs : SortedByInput S)
    (hlo : ∀ p ∈ S, c ≤ inputOf p)
    (hd : ∀ p ∈ S, ∀ m, c ≤ m → m < inputOf p → ∃ q ∈ S, inputOf q = m) :
    expandLoop c (skipLoop S) = S := by
  induction S generalizing c with
  | nil => rfl
  | cons p rest ih =>
    have hs2 := List.pairwise_cons.mp hs
    have hpm : p ∈ p :: rest := List.mem_cons_self _ _
    have hpc : inputOf p = c := by
      by_contra hne
      have hlt : c < inputOf p := by have := hlo p hpm; omega
      obtain ⟨q, hq, hqc⟩ := hd p hpm c (Nat.le_refl c) hlt
      rcases List.mem_cons.mp hq with rfl | hq2
      · omega
      · have := hs2.1 q hq2; omega
    have hpin : p.input = some c := by
      rw [input_eq_of_ne_none (hwf p hpm).1.1, hpc]
    simp only [skipLoop, expandLoop]
    rw [decodePayment_strip p c _ (hwf p hpm).1 (hwf p hpm).2 hpin]
    congr 1
    cases rest with
    | nil => rfl
    | cons q rest2 =>
      have hqm : q ∈ p :: q :: rest2 := List.mem_cons_of_mem _ (List.mem_cons_self _ _)
      have hpq : inputOf p ≤ inputOf q := hs2.1 q (List.mem_cons_self _ _)
      have hs3 := List.pairwise_cons.mp hs2.2
      have hqle : ∀ r ∈ q :: rest2, inputOf q ≤ inputOf r := by
        intro r hr
        rcases List.mem_cons.mp hr with rfl | hr2
        · exact Nat.le_refl _
        · exact hs3.1 r hr2
      simp only [jsGt_eq_decide (hwf p hpm).1.1 (hwf q hqm).1.1, truthy]
      refine ih _ (fun x hx => hwf x (List.mem_cons_of_mem _ hx)) hs2.2 ?_ ?_
      · intro r hr
        have h1 := hqle r hr
        by_cases hlt : inputOf p < inputOf q
        · simp only [hlt, decide_True, if_true]; omega
        · simp only [hlt, decide_False]; simp only [Bool.false_eq_true, if_false]; omega
      · intro r hr m hm1 hm2
        by_cases hlt : inputOf p < inputOf q
        · simp only [hlt, decide_True, if_true] at hm1
          obtain ⟨x, hx, hxm⟩ := hd r (List.mem_cons_of_mem _ hr) m (by omega) hm2
          rcases List.mem_cons.mp hx with rfl | hx2
          · omega
          · exact ⟨x, hx2, hxm⟩
        · simp only [hlt, decide_False, Bool.false_eq_true, if_false] at hm1
          obtain ⟨x, hx, hxm⟩ := hd r (List.mem_cons_of_mem _ hr) m hm1 hm2
          rcases List.mem_cons.mp hx with rfl | hx2
          · exact ⟨q, List.mem_cons_self _ _, by omega⟩
          · exact ⟨x, hx2, hxm⟩

/-- Compaction followed by expansion gives back payments that are in
ascending input order with inputs `0, ..., k - 1` and of the built shape. -/
theorem expand_compact_of_normal (S : List Payment)
    (hwf : ∀ p ∈ S, InputIndexed p ∧ WellShaped p) (hs : SortedByInput S)
    (hd : DenseInputs S) :
    paymentsSkipToInput (paymentsInputToSkip S) = S := by
  rw [paymentsInputToSkip, map_jsonClone_of_inputIndexed S (fun p hp => (hwf p hp).1),
    sortByInput_of_sorted S hs, paymentsSkipToInput]
  exact expandLoop_skipLoop S 0 hwf hs (fun _ _ => Nat.zero_le _)
    (fun p hp m _ hm => hd p hp m hm)

/-! ## The lookup table, key by key -/

/-- The inner loop over `n` consecutive keys from `s`. -/
theorem foldl_set_apply (e : LookupEntry) (s n : Nat) (t : LookupTable) (k : Nat) :
    ((List.range n).foldl (fun t i => LookupTable.set t (s + i) e) t) k
      = if s ≤ k ∧ k < s + n then some e else t k := by
  induction n with
  | zero =>
    have h : ¬ (s ≤ k ∧ k < s + 0) := by omega
    rw [if_neg h]
    rfl
  | succ n ih =>
    rw [List.range_succ, List.foldl_append]
    simp only [List.foldl_cons, List.foldl_nil, LookupTable.set, ih]
    by_cases h1 : k = s + n
    · subst h1; simp
    · by_cases h2 : s ≤ k ∧ k < s + n
      · have h3 : s ≤ k ∧ k < s + (n + 1) := ⟨h2.1, by omega⟩
        simp [h1, h2, h3]
      · have h3 : ¬ (s ≤ k ∧ k < s + (n + 1)) := by omega
        simp [h1, h2, h3]

theorem fillRange_apply (t : LookupTable) (o : OpCode) (k : Nat) :
    fillRange t o k
      = if o.start ≤ k ∧ k ≤ o.stop then some { encoder := o.encoder, type := o.type } else t k := by
  rw [fillRange, foldl_set_apply]
  by_cases h : o.start ≤ k ∧ k ≤ o.stop
  · rw [if_pos h, if_pos ⟨h.1, by omega⟩]
  · rw [if_neg h, if_neg (by omega)]

/-- The table, key by key: the entry of the declaration whose range holds the key. -/
theorem encodingLookup_eq (b : Nat) :
    encodingLookup b
      = (OP_CODES.find? (fun o => decide (o.start ≤ b ∧ b ≤ o.stop))).map
          (fun o => { encoder := o.encoder, type := o.type }) := by
  simp only [encodingLookup, OP_CODES, List.foldl_cons, List.foldl_nil, fillRange_apply,
    List.find?_cons, List.find?_nil]
  by_cases h1 : b ≤ 15
  · have h2 : ¬ (16 ≤ b ∧ b ≤ 31) := by omega
    have h3 : ¬ (32 ≤ b ∧ b ≤ 47) := by omega
    simp [h1, h2, h3]
  · by_cases h2 : 16 ≤ b ∧ b ≤ 31
    · have h3 : ¬ (32 ≤ b ∧ b ≤ 47) := by omega
      simp [h1, h2, h3]
    · by_cases h3 : 32 ≤ b ∧ b ≤ 47
      · simp [h1, h2, h3]
      · simp [h1, h2, h3]

theorem encodingLookup_of_mem (o : OpCode) (ho : o ∈ OP_CODES) (j : Nat)
    (h1 : o.start ≤ j) (h2 : j ≤ o.stop) :
    encodingLookup j = some { encoder := o.encoder, type := o.type } := by
  rw [encodingLookup_eq]
  simp only [OP_CODES, List.mem_cons, List.mem_singleton, List.not_mem_nil, or_false] at ho
  rcases ho with rfl | rfl | rfl
  · have h : j ≤ 15 := h2
    simp [OP_CODES, h]
  · have ha : 16 ≤ j := h1
    have hb : j ≤ 31 := h2
    have hc : ¬ j ≤ 15 := by omega
    simp [OP_CODES, ha, hb, hc]
  · have ha : 32 ≤ j := h1
    have hb : j ≤ 47 := h2
    have hc : ¬ j ≤ 15 := by omega
    have hd : ¬ (16 ≤ j ∧ j ≤ 31) := by omega
    simp [OP_CODES, ha, hb, hc, hd]

theorem encodingLookup_eq_none_iff (j : Nat) :
    encodingLookup j = none ↔ ¬ ∃ o ∈ OP_CODES, o.start ≤ j ∧ j ≤ o.stop := by
  constructor
  · rintro h ⟨o, ho, h1, h2⟩
    rw [encodingLookup_of_mem o ho j h1 h2] at h
    exact Option.some_ne_none _ h
  · intro h
    rw [encodingLookup_eq, Option.map_eq_none', List.find?_eq_none]
    intro o ho hj
    exact h ⟨o, ho, by simpa using hj⟩

/-! ## The compaction on the store: what is written, what is not -/

theorem orderedInsertRef_map (objs : List Payment) (a : Nat) (l : List Nat) :
    (orderedInsertRef objs a l).map (objAt objs)
      = orderedInsert (objAt objs a) (l.map (objAt objs)) := by
  induction l with
  | nil => rfl
  | cons b l ih =>
    simp only [orderedInsertRef, List.map_cons, orderedInsert]
    split <;> simp [ih]

theorem sortRefs_map (objs : List Payment) (l : List Nat) :
    (sortRefs objs l).map (objAt objs) = sortByInput (l.map (objAt objs)) := by
  induction l with
  | nil => rfl
  | cons a l ih =>
    show (orderedInsertRef objs a (sortRefs objs l)).map _ = orderedInsert _ (sortByInput _)
    rw [orderedInsertRef_map, ih]

theorem orderedInsertRef_perm (objs : List Payment) (a : Nat) (l : List Nat) :
    (orderedInsertRef objs a l).Perm (a :: l) := by
  induction l with
  | nil => exact List.Perm.refl _
  | cons b l ih =>
    unfold orderedInsertRef
    split
    · exact (List.Perm.cons b ih).trans (List.Perm.swap a b l)
    · exact List.Perm.refl _

theorem sortRefs_perm (objs : List Payment) (l : List Nat) : (sortRefs objs l).Perm l := by
  induction l with
  | nil => exact List.Perm.refl _
  | cons a l ih =>
    show (orderedInsertRef objs a (sortRefs objs l)).Perm _
    exact (orderedInsertRef_perm objs a _).trans (List.Perm.cons a ih)

theorem skipLoopH_length (objs : List Payment) (l : List Nat) :
    (skipLoopH objs l).length = objs.length := by
  induction l generalizing objs with
  | nil => rfl
  | cons r rest ih => simp only [skipLoopH, ih, List.length_set]

/-- The loop writes no object outside its array. -/
theorem skipLoopH_getElem?_of_not_mem (objs : List Payment) (l : List Nat) (k : Nat)
    (hk : k ∉ l) : (skipLoopH objs l)[k]? = objs[k]? := by
  induction l generalizing objs with
  | nil => rfl
  | cons r rest ih =>
    simp only [skipLoopH]
    rw [ih _ (fun h => hk (List.mem_cons_of_mem _ h)), List.getElem?_set_ne]
    intro h
    exact hk (h ▸ List.mem_cons_self _ _)

theorem skipLoopH_step (objs : List Payment) (r : Nat) (rest : List Nat) (v : Payment)
    (hr : r ∉ rest) (hlt : r < objs.length)
    (ih : rest.map (objAt (skipLoopH (objs.set r v) rest))
      = skipLoop (rest.map (objAt (objs.set r v)))) :
    (r :: rest).map (objAt (skipLoopH (objs.set r v) rest))
      = v :: skipLoop (rest.map (objAt objs)) := by
  have hobj : ∀ x ∈ rest, objAt (objs.set r v) x = objAt objs x := by
    intro x hx
    unfold objAt
    rw [List.getElem?_set_ne]
    rintro rfl
    exact hr hx
  have hhead : objAt (skipLoopH (objs.set r v) rest) r = v := by
    unfold objAt
    rw [skipLoopH_getElem?_of_not_mem _ _ _ hr, List.getElem?_set_self hlt]
    rfl
  rw [List.map_cons, hhead, ih, List.map_congr_left hobj]

/-- Read through its array, the loop on the store is the loop on the values,
when the array holds distinct addresses of existing objects. -/
theorem skipLoopH_map (objs : List Payment) (l : List Nat) (hnd : l.Nodup)
    (hlt : ∀ r ∈ l, r < objs.length) :
    l.map (objAt (skipLoopH objs l)) = skipLoop (l.map (objAt objs)) := by
  induction l generalizing objs with
  | nil => rfl
  | cons r rest ih =>
    obtain ⟨hr, hnd2⟩ := List.nodup_cons.mp hnd
    have hr2 : r < objs.length := hlt r (List.mem_cons_self _ _)
    have hrest : ∀ v : Payment, ∀ x ∈ rest, x < (objs.set r v).length := by
      intro v x hx
      rw [List.length_set]
      exact hlt x (List.mem_cons_of_mem _ hx)
    cases rest with
    | nil =>
      simp only [skipLoopH, skipLoop, List.map_cons, List.map_nil]
      exact skipLoopH_step objs r [] _ hr hr2 rfl
    | cons r2 rest2 =>
      simp only [skipLoopH, skipLoop, List.map_cons]
      exact skipLoopH_step objs r (r2 :: rest2) _ hr hr2 (ih _ hnd2 (hrest _))

theorem map_objAt_fresh (objs clones : List Payment) :
    (List.range' objs.length clones.length).map (objAt (objs ++ clones)) = clones := by
  induction clones generalizing objs with
  | nil => rfl
  | cons c cs ih =>
    have h1 : objs ++ c :: cs = (objs ++ [c]) ++ cs := by simp
    have h2 : (objs ++ [c]).length = objs.length + 1 := by simp
    rw [List.length_cons, List.range'_succ, List.map_cons]
    congr 1
    · unfold objAt
      rw [List.getElem?_append_right (Nat.le_refl _)]
      simp
    · rw [h1, ← h2]
      exact ih (objs ++ [c])

theorem skipLoop_erase (S : List Payment) (hs : ∀ p ∈ S, p.skip = none) :
    (skipLoop S).map (fun p => { p with skip := none })
      = S.map (fun p => { p with input := none }) := by
  induction S with
  | nil => rfl
  | cons a l ih =>
    have ha := hs a (List.mem_cons_self _ _)
    simp only [skipLoop, List.map_cons, ih (fun x hx => hs x (List.mem_cons_of_mem _ hx))]
    congr 1
    rcases a with ⟨i, am, o, r, pc, b, sk⟩
    simp only at ha
    subst ha
    rfl

/-- The store version returns, at the address of `result`, the value
`paymentsInputToSkip` computes. -/
theorem paymentsInputToSkipH_read (h : Heap) (payments : Nat) :
    (paymentsInputToSkipH h payments).1.read (paymentsInputToSkipH h payments).2
      = paymentsInputToSkip (h.read payments) := by
  simp only [paymentsInputToSkipH]
  generalize h.read payments = P
  have hperm := sortRefs_perm (h.objs ++ P.map jsonClone)
    (List.range' h.objs.length (P.map jsonClone).length)
  have hnd : (sortRefs (h.objs ++ P.map jsonClone)
      (List.range' h.objs.length (P.map jsonClone).length)).Nodup :=
    hperm.nodup_iff.mpr (List.nodup_range' _ _)
  have hlt : ∀ r ∈ sortRefs (h.objs ++ P.map jsonClone)
      (List.range' h.objs.length (P.map jsonClone).length),
      r < (h.objs ++ P.map jsonClone).length := by
    intro r hr
    have := List.mem_range'_1.mp (hperm.mem_iff.mp hr)
    rw [List.length_append]
    exact this.2
  simp only [Heap.read, List.getElem?_concat_length, Option.getD_some]
  rw [skipLoopH_map _ _ hnd hlt, sortRefs_map, map_objAt_fresh]
  rfl

/-- The store version leaves every object that existed before as it was. -/
theorem paymentsInputToSkipH_objs (h : Heap) (payments k : Nat) (hk : k < h.objs.length) :
    (paymentsInputToSkipH h payments).1.objs[k]? = h.objs[k]? := by
  simp only [paymentsInputToSkipH]
  generalize h.read payments = P
  have hperm := sortRefs_perm (h.objs ++ P.map jsonClone)
    (List.range' h.objs.length (P.map jsonClone).length)
  rw [skipLoopH_getElem?_of_not_mem, List.getElem?_append_left hk]
  intro hmem
  have := List.mem_range'_1.mp (hperm.mem_iff.mp hmem)
  omega

theorem paymentsInputToSkipH_arrs (h : Heap) (payments : Nat) :
    (paymentsInputToSkipH h payments).1.arrs = h.arrs ++
      [sortRefs (h.objs ++ (h.read payments).map jsonClone)
        (List.range' h.objs.length ((h.read payments).map jsonClone).length)] := rfl

/-! ## Round trip -/

/-- C1, as stated, fails: a single payment with input `1` comes back with
input `0`. -/
theorem roundtrip_refuted :
    paymentsSkipToInput (paymentsInputToSkip (sortByInput [samplePayment 1 5 0]))
      = [samplePayment 0 5 0] ∧
    paymentsSkipToInput (paymentsInputToSkip (sortByInput [samplePayment 1 5 0]))
      ≠ sortByInput [samplePayment 1 5 0] := by
  constructor <;> decide

/-- C1, amended. For payments of the input-indexed form and the built shape
whose input indices are exactly `0, ..., k - 1` for some `k`, expanding the
compaction of the sorted payments gives the sorted payments back, field for
field. -/
theorem roundtrip (P : List Payment) (hwf : ∀ p ∈ P, InputIndexed p ∧ WellShaped p)
    (hd : DenseInputs P) :
    paymentsSkipToInput (paymentsInputToSkip (sortByInput P)) = sortByInput P := by
  refine expand_compact_of_normal _ (fun p hp => hwf p (mem_sortByInput.mp hp))
    (sortByInput_sorted P (fun p hp => (hwf p hp).1.1)) ?_
  intro p hp m hm
  obtain ⟨q, hq, hqm⟩ := hd p (mem_sortByInput.mp hp) m hm
  exact ⟨q, mem_sortByInput.mpr hq, hqm⟩

/-- Witness for the amended C1: inputs `1, 0, 1` with a burn payment. -/
theorem roundtrip_witness :
    paymentsSkipToInput (paymentsInputToSkip (sortByInput
        [samplePayment 1 5 0, samplePayment 0 7 1,
         { input := some 1, amount := some 3, percent := some false, burn := some true }]))
      = sortByInput [samplePayment 1 5 0, samplePayment 0 7 1,
         { input := some 1, amount := some 3, percent := some false, burn := some true }] :=
  roundtrip _ (by decide) (by
    intro p hp m hm
    simp only [List.mem_cons, List.mem_singleton, List.not_mem_nil, or_false] at hp
    rcases hp with rfl | rfl | rfl
    · exact ⟨samplePayment 0 7 1, by simp, by simp [inputOf, samplePayment] at hm ⊢; omega⟩
    · simp [inputOf, samplePayment] at hm
    · exact ⟨samplePayment 0 7 1, by simp, by simp [inputOf, samplePayment] at hm ⊢; omega⟩)

/-! ## Compaction: the skip flags -/

/-- C2. `paymentsInputToSkip` keeps the length; with `S` the payments in
input-sorted order (a permutation of the payments, ascending when every
payment has an input), its payment at position `i` is the copy of `S[i]` without
`input` and with a boolean `skip`, which is `true` exactly when `S[i + 1]`
exists and its input is strictly greater than that of `S[i]`.  The empty
sequence gives the empty sequence, a single payment gets `skip = false`, and
equal inputs at positions `i` and `i + 1` give `skip = false` at `i`. -/
theorem paymentsInputToSkip_skip_spec (P : List Payment) :
    (paymentsInputToSkip P).length = P.length ∧
    (sortByInput P).Perm P ∧
    ((∀ p ∈ P, p.input ≠ none) → SortedByInput (sortByInput P)) ∧
    (∀ i p, (sortByInput P)[i]? = some p →
      ∃ b : Bool, (paymentsInputToSkip P)[i]? =
          some { jsonClone p with input := none, skip := some b } ∧
        (b = true ↔ ∃ q m n, (sortByInput P)[i + 1]? = some q ∧
          p.input = some m ∧ q.input = some n ∧ m < n)) ∧
    (∀ r ∈ paymentsInputToSkip P, r.input = none) ∧
    paymentsInputToSkip [] = [] ∧
    (∀ p, paymentsInputToSkip [p] = [{ jsonClone p with input := none, skip := some false }]) ∧
    (∀ i p q, (sortByInput P)[i]? = some p → (sortByInput P)[i + 1]? = some q →
      p.input = q.input → ((paymentsInputToSkip P)[i]?).map (fun r => r.skip) = some (some false)) := by
  have key : ∀ i p, (sortByInput P)[i]? = some p →
      ∃ b : Bool, (paymentsInputToSkip P)[i]? =
          some { jsonClone p with input := none, skip := some b } ∧
        (b = true ↔ ∃ q m n, (sortByInput P)[i + 1]? = some q ∧
          p.input = some m ∧ q.input = some n ∧ m < n) := by
    intro i p hp
    rw [paymentsInputToSkip_eq, skipLoop_getElem?]
    simp only [List.getElem?_map, hp, Option.map_some']
    cases hq : (sortByInput P)[i + 1]? with
    | none => exact ⟨false, by simp⟩
    | some q =>
      refine ⟨jsGt q.input p.input, by simp [jsonClone], ?_⟩
      rw [jsGt_iff]
      constructor
      · rintro ⟨m, n, h1, h2, h3⟩
        exact ⟨q, m, n, rfl, h1, h2, h3⟩
      · rintro ⟨q', m, n, h0, h1, h2, h3⟩
        cases h0
        exact ⟨m, n, h1, h2, h3⟩
  refine ⟨paymentsInputToSkip_length P, sortByInput_perm P, sortByInput_sorted P, key, ?_, rfl,
    fun p => rfl, ?_⟩
  · intro r hr
    obtain ⟨i, hi, rfl⟩ := List.getElem_of_mem hr
    have hlen : i < (sortByInput P).length := by
      rw [sortByInput_length]; rw [paymentsInputToSkip_length] at hi; exact hi
    obtain ⟨b, hb, -⟩ := key i _ (List.getElem?_eq_getElem hlen)
    rw [List.getElem?_eq_getElem hi] at hb
    rw [Option.some.inj hb]
  · intro i p q hp hq hpq
    obtain ⟨b, hb, hiff⟩ := key i p hp
    rw [hb]
    cases b with
    | false => rfl
    | true =>
      obtain ⟨q', m, n, h0, h1, h2, h3⟩ := hiff.mp rfl
      rw [hq] at h0
      cases h0
      rw [h1, h2] at hpq
      cases hpq
      omega

/-- Witness for C2: in `[input 0, input 2]` position `0` gets `skip = true`. -/
theorem paymentsInputToSkip_skip_spec_witness :
    ∃ b : Bool, (paymentsInputToSkip [samplePayment 0 5 0, samplePayment 2 7 1])[0]? =
        some ({ jsonClone (samplePayment 0 5 0) with input := none, skip := some b } : Payment) ∧
      (b = true ↔ ∃ q m n,
        (sortByInput [samplePayment 0 5 0, samplePayment 2 7 1])[0 + 1]? = some q ∧
        (samplePayment 0 5 0).input = some m ∧ q.input = some n ∧ m < n) :=
  (paymentsInputToSkip_skip_spec [samplePayment 0 5 0, samplePayment 2 7 1]).2.2.2.1 0
    (samplePayment 0 5 0) (by decide)

/-! ## Expansion: the running counter -/

/-- C3. `paymentsSkipToInput` keeps length and order; payment `i` of the
result has `input` equal to the number of payments before position `i` whose
`skip` is `true`, `amount` and `percent` copied, and either `burn = true` alone
(burn payments) or `output` and `range` copied and no `burn` (the others); it
carries no `skip`.  Skips `[F,T,T,F,T]` give inputs `[0,0,1,2,2]`. -/
theorem paymentsSkipToInput_spec (S : List Payment) :
    (paymentsSkipToInput S).length = S.length ∧
    (∀ i : Nat, (paymentsSkipToInput S)[i]? = S[i]?.map (fun p =>
      { input := some ((S.take i).countP (fun q => decide (q.skip = some true)))
        amount := p.amount
        percent := p.percent
        output := if p.burn = some true then none else p.output
        range := if p.burn = some true then none else p.range
        burn := if p.burn = some true then some true else none
        skip := none })) ∧
    (∀ a b c d e : Payment,
      (paymentsSkipToInput [{ a with skip := some false }, { b with skip := some true },
        { c with skip := some true }, { d with skip := some false },
        { e with skip := some true }]).map (fun p => p.input)
      = [some 0, some 0, some 1, some 2, some 2]) := by
  refine ⟨expandLoop_length 0 S, ?_, ?_⟩
  · intro i
    rw [paymentsSkipToInput, expandLoop_getElem?]
    congr 1
    funext p
    rcases hb : p.burn with _ | _ | _ <;> simp [decodePayment, truthy, hb]
  · intro a b c d e
    simp [paymentsSkipToInput, expandLoop, decodePayment, truthy]

/-! ## The example of the run-skip flags -/

/-- C4, as the spec states it, fails: for payments with inputs `[0,0,1,3,3]`
the flags are `[false,true,true,false,false]`, the last one being `false`,
not `true`. -/
theorem paymentsInputToSkip_example_refuted :
    (paymentsInputToSkip [samplePayment 0 1 0, samplePayment 0 1 1, samplePayment 1 1 2,
        samplePayment 3 1 3, samplePayment 3 1 4]).map (fun p => p.skip)
      = [some false, some true, some true, some false, some false] ∧
    (paymentsInputToSkip [samplePayment 0 1 0, samplePayment 0 1 1, samplePayment 1 1 2,
        samplePayment 3 1 3, samplePayment 3 1 4]).map (fun p => p.skip)
      ≠ [some false, some true, some true, some false, some true] := by
  constructor <;> decide

/-- C4, amended. Whatever their other fields, payments with inputs
`[0,0,1,3,3]` in that order give the skip flags `[false,true,true,false,false]`. -/
theorem paymentsInputToSkip_example (P : List Payment)
    (h : P.map (fun p => p.input) = [some 0, some 0, some 1, some 3, some 3]) :
    (paymentsInputToSkip P).map (fun p => p.skip)
      = [some false, some true, some true, some false, some false] := by
  rcases P with _ | ⟨a, _ | ⟨b, _ | ⟨c, _ | ⟨d, _ | ⟨e, _ | ⟨f, l⟩⟩⟩⟩⟩⟩ <;>
    simp only [List.map_cons, List.map_nil, List.cons.injEq, and_true, and_false,
      reduceCtorEq] at h
  obtain ⟨ha, hb, hc, hd, he⟩ := h
  simp [paymentsInputToSkip_eq, sortByInput, orderedInsert, sortsAfter, compareInput,
    skipLoop, jsGt, jsonClone, ha, hb, hc, hd, he]

/-- Witness for the amended C4. -/
theorem paymentsInputToSkip_example_witness :
    (paymentsInputToSkip [samplePayment 0 1 0, samplePayment 0 1 1, samplePayment 1 1 2,
        samplePayment 3 1 3, samplePayment 3 1 4]).map (fun p => p.skip)
      = [some false, some true, some true, some false, some false] :=
  paymentsInputToSkip_example _ (by decide)

/-! ## Stable sort and the caller's array -/

/-- C5. On a store in which `payments` is an array of existing input-indexed
payment objects: the array returned by `paymentsInputToSkip`, skip flags
ignored, is a sequence `S` with every `input` dropped, where `S` is a
permutation of the caller's payments in ascending input order that keeps
payments of equal input in their original relative order; the caller's array
reads as before, every array and object that existed is unchanged; and the
returned array holds the value `paymentsInputToSkip` computes. -/
theorem paymentsInputToSkipH_spec (h : Heap) (payments : Nat)
    (hv : payments < h.arrs.length)
    (hrefs : ∀ r ∈ (h.arrs[payments]?).getD [], r < h.objs.length)
    (hin : ∀ p ∈ h.read payments, InputIndexed p) :
    (∃ S : List Payment, S.Perm (h.read payments) ∧ SortedByInput S ∧
      (∀ n, S.filter (fun p => decide (inputOf p = n))
        = (h.read payments).filter (fun p => decide (inputOf p = n))) ∧
      ((paymentsInputToSkipH h payments).1.read (paymentsInputToSkipH h payments).2).map
          (fun p => { p with skip := none })
        = S.map (fun p => { p with input := none })) ∧
    (paymentsInputToSkipH h payments).1.read payments = h.read payments ∧
    (paymentsInputToSkipH h payments).1.arrs.take h.arrs.length = h.arrs ∧
    (paymentsInputToSkipH h payments).1.objs.take h.objs.length = h.objs ∧
    (paymentsInputToSkipH h payments).1.read (paymentsInputToSkipH h payments).2
      = paymentsInputToSkip (h.read payments) := by
  refine ⟨⟨sortByInput (h.read payments), sortByInput_perm _,
    sortByInput_sorted _ (fun p hp => (hin p hp).1), sortByInput_filter _, ?_⟩, ?_, ?_, ?_,
    paymentsInputToSkipH_read h payments⟩
  · rw [paymentsInputToSkipH_read, paymentsInputToSkip,
      map_jsonClone_of_inputIndexed _ hin]
    exact skipLoop_erase _ (fun p hp => (hin p (mem_sortByInput.mp hp)).2.1)
  · unfold Heap.read
    rw [paymentsInputToSkipH_arrs, List.getElem?_append_left hv]
    apply List.map_congr_left
    intro r hr
    unfold objAt
    rw [paymentsInputToSkipH_objs h payments r (hrefs r hr)]
  · rw [paymentsInputToSkipH_arrs, List.take_left]
  · apply List.ext_getElem?
    intro k
    by_cases hk : k < h.objs.length
    · rw [List.getElem?_take_of_lt hk, paymentsInputToSkipH_objs h payments k hk]
    · rw [List.getElem?_take_eq_none (Nat.le_of_not_lt hk),
        List.getElem?_eq_none (Nat.le_of_not_lt hk)]

/-- Witness for C5: the caller's array `[1, 0, 1]` reads the same after the call. -/
theorem paymentsInputToSkipH_spec_witness :
    (paymentsInputToSkipH sampleHeap 0).1.read 0 = sampleHeap.read 0 ∧
    (paymentsInputToSkipH sampleHeap 0).1.read (paymentsInputToSkipH sampleHeap 0).2
      = paymentsInputToSkip (sampleHeap.read 0) :=
  ⟨(paymentsInputToSkipH_spec sampleHeap 0 (by decide) (by decide) (by decide)).2.1,
   (paymentsInputToSkipH_spec sampleHeap 0 (by decide) (by decide) (by decide)).2.2.2.2⟩

/-! ## Encoding -/

/-- C6, as stated, fails: a successful `encode` leaves payments `[1, 0]` in
the order `[0, 1]`, and leaves a lone payment with input `1` with input `0`. -/
theorem encode_descriptor_refuted :
    (encode okCodecs (sampleTx [samplePayment 1 5 0, samplePayment 0 7 1])).2
      = Except.ok [0x44, 0x41, 0x02, 0x15] ∧
    (encode okCodecs (sampleTx [samplePayment 1 5 0, samplePayment 0 7 1])).1.payments
      = [samplePayment 0 7 1, samplePayment 1 5 0] ∧
    (encode okCodecs (sampleTx [samplePayment 1 5 0, samplePayment 0 7 1])).1.payments
      ≠ (sampleTx [samplePayment 1 5 0, samplePayment 0 7 1]).payments ∧
    (encode okCodecs (sampleTx [samplePayment 1 5 0])).1.payments = [samplePayment 0 5 0] :=
  ⟨rfl, by decide, by decide, by decide⟩

/-- C6, amended. After a successful `encode` every field but `payments` is as
before and `payments` is the expansion of the compaction of the payments
before; the descriptor is unchanged when its payments are of the input-indexed
form and built shape, in ascending input order, with inputs `0, ..., k - 1`. -/
theorem encode_ok_descriptor (c : Codecs) (t : Tx) (bytes : List Nat)
    (h : (encode c t).2 = Except.ok bytes) :
    (encode c t).1
      = { t with payments := paymentsSkipToInput (paymentsInputToSkip t.payments) } ∧
    ((∀ p ∈ t.payments, InputIndexed p ∧ WellShaped p) → SortedByInput t.payments →
      DenseInputs t.payments → (encode c t).1 = t) := by
  have key : (encode c t).1
      = { t with payments := paymentsSkipToInput (paymentsInputToSkip t.payments) } := by
    unfold encode at h ⊢
    cases ho : opCodeOf t.type with
    | none =>
      simp only [ho] at h
      split at h <;> simp at h
    | some op =>
      simp only [ho] at h ⊢
      cases he : (c.get op.encoder).encode
          { t with payments := paymentsInputToSkip t.payments } MAXBYTESIZE with
      | error e => simp [he] at h
      | ok r => rfl
  refine ⟨key, fun hwf hs hd => ?_⟩
  rw [key, expand_compact_of_normal t.payments hwf hs hd]

/-- Witness for the amended C6. -/
theorem encode_ok_descriptor_witness :
    (encode okCodecs (sampleTx [samplePayment 0 7 1, samplePayment 1 5 0])).1
      = sampleTx [samplePayment 0 7 1, samplePayment 1 5 0] :=
  (encode_ok_descriptor okCodecs (sampleTx [samplePayment 0 7 1, samplePayment 1 5 0])
    [0x44, 0x41, 0x02, 0x15] rfl).2 (by decide) (by decide) (by
      intro p hp m hm
      have hp2 : p = samplePayment 0 7 1 ∨ p = samplePayment 1 5 0 := by
        simpa [sampleTx, mkTransaction] using hp
      rcases hp2 with rfl | rfl
      · simp [inputOf, samplePayment] at hm
      · exact ⟨samplePayment 0 7 1, by simp [sampleTx, mkTransaction],
          by simp [inputOf, samplePayment] at hm ⊢; omega⟩)

/-- C7 at the failing input: when the encoder throws, `encode` raises that
error and leaves the descriptor with its payments in run-skip form (no
`input`, a `skip` flag), not as they were. -/
theorem encode_error_leaves_skip_form :
    (encode failCodecs (sampleTx [samplePayment 0 5 0])).2
      = Except.error (JsError.codecError "Data code is bigger than the allowed byte size") ∧
    (encode failCodecs (sampleTx [samplePayment 0 5 0])).1.payments
      = [{ amount := some 5, output := some (JsNum.num 0), range := some false,
           percent := some false, skip := some false }] ∧
    (encode failCodecs (sampleTx [samplePayment 0 5 0])).1
      ≠ sampleTx [samplePayment 0 5 0] :=
  ⟨rfl, by decide, by decide⟩

/-! ## Opcode dispatch -/

/-- C8. For every key `b` the table built at load time holds the type
`issuance` when `b ≤ 0x0f`, `transfer` when `0x10 ≤ b ≤ 0x1f`, `burn` when
`0x20 ≤ b ≤ 0x2f`, and no entry otherwise; the entry is that of the declared
range holding `b`; the declared ranges are pairwise disjoint and lie in
`[0, 255]`. -/
theorem encodingLookup_spec :
    (∀ b : Nat, (encodingLookup b).map (fun e => e.type)
      = if b ≤ 0x0f then some "issuance"
        else if b ≤ 0x1f then some "transfer"
        else if b ≤ 0x2f then some "burn"
        else none) ∧
    (∀ b : Nat, encodingLookup b
      = (OP_CODES.find? (fun o => decide (o.start ≤ b ∧ b ≤ o.stop))).map
          (fun o => { encoder := o.encoder, type := o.type })) ∧
    OP_CODES.Pairwise (fun o o2 => o.stop < o2.start ∨ o2.stop < o.start) ∧
    OP_CODES.all (fun o => decide (o.start ≤ o.stop ∧ o.stop ≤ 255)) = true := by
  refine ⟨?_, encodingLookup_eq, by decide, by decide⟩
  intro b
  rw [encodingLookup_eq]
  simp only [OP_CODES, List.find?_cons, List.find?_nil]
  by_cases h1 : b ≤ 15
  · simp [h1]
  · by_cases h2 : b ≤ 31
    · have h : 16 ≤ b := by omega
      simp [h1, h2, h]
    · by_cases h3 : b ≤ 47
      · have h : 32 ≤ b := by omega
        have h4 : 16 ≤ b := by omega
        simp [h1, h2, h3, h, h4]
      · have h5 : ¬ (32 ≤ b ∧ b ≤ 47) := by omega
        have h6 : ¬ (16 ≤ b ∧ b ≤ 31) := by omega
        simp [h1, h2, h3, h5, h6]

/-! ## Decoding -/

/-- C9. `fromHex` fails exactly when the byte at offset 3 is missing or lies
in no declared range, or the decoder of the range holding it fails; so an
unmapped opcode byte never yields a descriptor. -/
theorem fromHex_error_iff (c : Codecs) (op_return : List Nat) :
    (∃ e, fromHex c op_return = Except.error e) ↔
      ((¬ ∃ j, op_return[3]? = some j ∧ ∃ o ∈ OP_CODES, o.start ≤ j ∧ j ≤ o.stop) ∨
       (∃ j o e, op_return[3]? = some j ∧ o ∈ OP_CODES ∧ o.start ≤ j ∧ j ≤ o.stop ∧
          (c.get o.encoder).decode op_return = Except.error e)) := by
  unfold fromHex
  cases hb : op_return[3]? with
  | none => simp [lookupByte]
  | some j =>
    simp only [lookupByte]
    by_cases hr : ∃ o ∈ OP_CODES, o.start ≤ j ∧ j ≤ o.stop
    · obtain ⟨o, ho, h1, h2⟩ := hr
      rw [encodingLookup_of_mem o ho j h1 h2]
      simp only
      cases hd : (c.get o.encoder).decode op_return with
      | error e =>
        simp only [exists_apply_eq_apply', true_iff]
        exact Or.inr ⟨j, o, e, rfl, ho, h1, h2, hd⟩
      | ok r =>
        simp only [reduceCtorEq, exists_false, false_iff, not_or, not_not]
        refine ⟨⟨j, rfl, o, ho, h1, h2⟩, ?_⟩
        rintro ⟨j2, o2, e, hj, ho2, h3, h4, hd2⟩
        cases hj
        have he := encodingLookup_of_mem o ho j h1 h2
        rw [encodingLookup_of_mem o2 ho2 j h3 h4] at he
        have henc : o2.encoder = o.encoder := by
          have := Option.some.inj he
          exact congrArg LookupEntry.encoder this
        rw [henc, hd] at hd2
        cases hd2
    · have hn := (encodingLookup_eq_none_iff j).mpr hr
      rw [hn]
      simp only [exists_apply_eq_apply', true_iff]
      left
      rintro ⟨j2, hj, h⟩
      cases hj
      exact hr h

/-- C10. When the byte at offset 3 lies in the range of a declaration `o` and
the decoder of `o` returns the fields `r`, `fromHex` returns a descriptor whose
type is that of `o`, whatever type `r` carries, and whose payments are
`paymentsSkipToInput r.payments`. -/
theorem fromHex_ok (c : Codecs) (op_return : List Nat) (j : Nat) (o : OpCode) (r : RawData)
    (hj : op_return[3]? = some j) (ho : o ∈ OP_CODES) (h1 : o.start ≤ j) (h2 : j ≤ o.stop)
    (hd : (c.get o.encoder).decode op_return = Except.ok r) :
    ∃ t, fromHex c op_return = Except.ok t ∧ t.type = o.type ∧
      t.payments = paymentsSkipToInput r.payments := by
  refine ⟨mkTransaction (rawToData r o.type), ?_, ?_, rfl⟩
  · simp only [fromHex, hj, lookupByte, encodingLookup_of_mem o ho j h1 h2, hd]
  · simp only [OP_CODES, List.mem_cons, List.mem_singleton, List.not_mem_nil, or_false] at ho
    rcases ho with rfl | rfl | rfl <;> simp [mkTransaction, rawToData, orString]

/-- Witness for C10: opcode byte `0x25` lies in the burn range; the transfer
encoder's decoded fields carry the type `issuance`, the descriptor is `burn`. -/
theorem fromHex_ok_witness :
    ∃ t, fromHex okCodecs [0x44, 0x41, 0x02, 0x25, 0x01] = Except.ok t ∧ t.type = "burn" ∧
      t.payments = paymentsSkipToInput
        [{ amount := some 5, output := some (JsNum.num 1), range := some false,
           percent := some false, skip := some true },
         { amount := some 7, percent := some false, burn := some true, skip := some false }] :=
  fromHex_ok okCodecs [0x44, 0x41, 0x02, 0x25, 0x01] 0x25
    { type := "burn", start := 0x20, stop := 0x2f, encoder := EncoderId.transferEncoder }
    _ rfl (by decide) (by decide) (by decide) rfl

/-! ## Mutators and the kind -/

/-- C11. `addBurn` fails exactly when the type is `issuance`, and then leaves
the descriptor as it was; otherwise it returns, having appended at the end of
`payments` one payment with `burn = true` and the given input, amount and
percent (no `output`, no `range`), set the type to `burn`, and changed nothing
else. -/
theorem addBurn_spec (t : Tx) (input : Option Nat) (amount : Option Int)
    (percent : Option Bool) :
    ((∃ e, (addBurn t input amount percent).2 = Except.error e) ↔ t.type = "issuance") ∧
    (t.type = "issuance" → (addBurn t input amount percent).1 = t) ∧
    (t.type ≠ "issuance" →
      addBurn t input amount percent =
        ({ t with
           payments := t.payments ++
             [{ input := input, amount := amount, percent := percent, burn := some true,
                output := none, range := none, skip := none }]
           type := "burn" }, Except.ok ())) := by
  by_cases h : t.type = "issuance"
  · refine ⟨⟨fun _ => h, fun _ =>
        ⟨JsError.error "Can't add burn payment to an issuance transaction",
          by simp [addBurn, h]⟩⟩, fun _ => (by simp [addBurn, h]), fun hn => absurd h hn⟩
  · refine ⟨⟨?_, fun hi => absurd hi h⟩, fun hi => absurd hi h,
      fun _ => (by simp [addBurn, h])⟩
    rintro ⟨e, he⟩
    simp [addBurn, h] at he

/-- Witness for C11: a burn added to a fresh descriptor. -/
theorem addBurn_spec_witness :
    addBurn (newTransaction none none) (some 0) (some 5) (some false) =
      ({ newTransaction none none with
         payments := [{ input := some 0, amount := some 5, percent := some false,
                        burn := some true }]
         type := "burn" }, Except.ok ()) :=
  (addBurn_spec (newTransaction none none) (some 0) (some 5) (some false)).2.2 (by decide)

/-- C12. `setAmount` fails exactly when `amount` is `undefined`, and then
leaves the descriptor as it was; otherwise, whatever the type was, it returns
with the type `issuance`, the amount stored (`0` included), the divisibility
stored (`0` when omitted), and nothing else changed. -/
theorem setAmount_spec (t : Tx) (amount : Option Int) (divisibility : Option Nat) :
    ((∃ e, (setAmount t amount divisibility).2 = Except.error e) ↔ amount = none) ∧
    (amount = none → (setAmount t amount divisibility).1 = t) ∧
    (∀ a, amount = some a →
      setAmount t amount divisibility =
        ({ t with
           type := "issuance"
           divisibility := some (divisibility.getD 0)
           amount := some a }, Except.ok ())) := by
  have hd : orNat divisibility 0 = divisibility.getD 0 := by
    cases divisibility with
    | none => rfl
    | some v =>
      simp only [orNat, Option.getD_some]
      split
      · rename_i h; exact h.symm
      · rfl
  cases amount with
  | none =>
    refine ⟨⟨fun _ => rfl, fun _ => ⟨_, rfl⟩⟩, fun _ => rfl, fun a ha => (by cases ha)⟩
  | some a =>
    refine ⟨⟨?_, fun h => (by cases h)⟩, fun h => (by cases h), fun b hb => ?_⟩
    · rintro ⟨e, he⟩
      simp [setAmount] at he
    · cases hb
      simp [setAmount, hd]

/-- Witness for C12: amount `0` on a burn descriptor, divisibility omitted. -/
theorem setAmount_spec_witness :
    setAmount (addBurn (newTransaction none none) (some 0) (some 5) (some false)).1
        (some 0) none =
      ({ (addBurn (newTransaction none none) (some 0) (some 5) (some false)).1 with
         type := "issuance", divisibility := some 0, amount := some 0 }, Except.ok ()) :=
  (setAmount_spec (addBurn (newTransaction none none) (some 0) (some 5) (some false)).1
    (some 0) none).2.2 0 rfl

theorem run_append (t : Tx) (cs ds : List Call) : run t (cs ++ ds) = run (run t cs) ds := by
  simp [run, List.foldl_append]

/-- One call keeps the type, or sets it to `issuance`, or sets it to `burn`
when it was not `issuance`. -/
theorem apply_type (t : Tx) (c : Call) :
    (c.apply t).type = t.type ∨ (c.apply t).type = "issuance" ∨
      (t.type ≠ "issuance" ∧ (c.apply t).type = "burn") := by
  cases c with
  | addPayment input amount output range percent => exact Or.inl rfl
  | addBurn input amount percent =>
    by_cases h : t.type = "issuance"
    · left; simp [Call.apply, addBurn, h]
    · right; right; exact ⟨h, by simp [Call.apply, addBurn, h]⟩
  | setAmount amount divisibility =>
    cases amount with
    | none => exact Or.inl rfl
    | some a => exact Or.inr (Or.inl rfl)
  | setLockStatus lockStatus => exact Or.inr (Or.inl rfl)
  | setAggregationPolicy aggregationPolicy => exact Or.inr (Or.inl rfl)
  | allowRules => exact Or.inl rfl
  | shiftOutputs shiftAmount => exact Or.inl rfl
  | setHash torrentHash sha2 =>
    left
    simp only [Call.apply, setHash]
    repeat' (first | rfl | split)

theorem apply_kind (t : Tx) (c : Call) (h : t.type ∈ ["transfer", "burn", "issuance"]) :
    (c.apply t).type ∈ ["transfer", "burn", "issuance"] ∧
      kindRank t.type ≤ kindRank (c.apply t).type := by
  simp only [List.mem_cons, List.mem_singleton, List.not_mem_nil, or_false] at h ⊢
  rcases apply_type t c with h1 | h1 | ⟨h0, h1⟩
  · rw [h1]; exact ⟨h, Nat.le_refl _⟩
  · rw [h1]
    refine ⟨Or.inr (Or.inr rfl), ?_⟩
    rcases h with h | h | h <;> rw [h] <;> decide
  · rw [h1]
    refine ⟨Or.inr (Or.inl rfl), ?_⟩
    rcases h with h | h | h
    · rw [h]; decide
    · rw [h]
    · exact absurd h h0

theorem run_kind (t : Tx) (ds : List Call) (h : t.type ∈ ["transfer", "burn", "issuance"]) :
    (run t ds).type ∈ ["transfer", "burn", "issuance"] ∧
      kindRank t.type ≤ kindRank (run t ds).type := by
  induction ds generalizing t with
  | nil => exact ⟨h, Nat.le_refl _⟩
  | cons c ds ih =>
    have h1 := apply_kind t c h
    have h2 := ih (c.apply t) h1.1
    exact ⟨h2.1, Nat.le_trans h1.2 h2.2⟩

theorem kindRank_eq_two {type : String} (h : 2 ≤ kindRank type) : type = "issuance" := by
  unfold kindRank at h
  split at h
  · assumption
  · split at h <;> omega

theorem kindRank_transfer : kindRank "transfer" = 0 := by decide

/-- C13. A fresh descriptor has the type `transfer`; along every sequence of
mutator calls (failing calls included) the type is one of `transfer`, `burn`,
`issuance` and its rank in the order `transfer < burn < issuance` never
decreases: once `issuance` it stays `issuance`, and once it has left `transfer`
it does not return.  Fresh, `addBurn` gives `burn`, then `setAmount` gives
`issuance`, then `addBurn` fails and the type is still `issuance`. -/
theorem kind_monotone (protocol version : Option Nat) (cs ds : List Call) :
    (newTransaction protocol version).type = "transfer" ∧
    (run (newTransaction protocol version) cs).type ∈ ["transfer", "burn", "issuance"] ∧
    kindRank (run (newTransaction protocol version) cs).type
      ≤ kindRank (run (newTransaction protocol version) (cs ++ ds)).type ∧
    ((run (newTransaction protocol version) cs).type = "issuance" →
      (run (newTransaction protocol version) (cs ++ ds)).type = "issuance") ∧
    ((run (newTransaction protocol version) cs).type ≠ "transfer" →
      (run (newTransaction protocol version) (cs ++ ds)).type ≠ "transfer") ∧
    (run (newTransaction none none) [Call.addBurn (some 0) (some 5) (some false)]).type
      = "burn" ∧
    (run (newTransaction none none)
      [Call.addBurn (some 0) (some 5) (some false), Call.setAmount (some 100) none]).type
      = "issuance" ∧
    (addBurn (run (newTransaction none none)
        [Call.addBurn (some 0) (some 5) (some false), Call.setAmount (some 100) none])
      (some 1) (some 2) (some false)).2
      = Except.error (JsError.error "Can't add burn payment to an issuance transaction") ∧
    (run (newTransaction none none)
      [Call.addBurn (some 0) (some 5) (some false), Call.setAmount (some 100) none,
       Call.addBurn (some 1) (some 2) (some false)]).type = "issuance" := by
  have h0 : (newTransaction protocol version).type = "transfer" := rfl
  have hk : (newTransaction protocol version).type ∈ ["transfer", "burn", "issuance"] := by
    rw [h0]; decide
  have h1 := run_kind (newTransaction protocol version) cs hk
  have h2 := run_kind (run (newTransaction protocol version) cs) ds h1.1
  rw [← run_append] at h2
  refine ⟨h0, h1.1, h2.2, ?_, ?_, by decide, by decide, rfl, by decide⟩
  · intro hi
    rw [hi] at h2
    exact kindRank_eq_two h2.2
  · intro hne hc
    rw [hc, kindRank_transfer] at h2
    have h3 := h1.1
    simp only [List.mem_cons, List.mem_singleton, List.not_mem_nil, or_false] at h3
    rcases h3 with h3 | h3 | h3
    · exact hne h3
    · rw [h3] at h2; revert h2; decide
    · rw [h3] at h2; revert h2; decide

/-- Witness for C13: after `addBurn` and `setLockStatus` the type is
`issuance` and stays so under `addBurn` and `shiftOutputs`. -/
theorem kind_monotone_witness :
    (run (newTransaction none none)
      ([Call.addBurn (some 0) (some 5) none, Call.setLockStatus (some true)] ++
       [Call.addBurn (some 0) (some 1) none, Call.shiftOutputs (some 2)])).type = "issuance" :=
  (kind_monotone none none [Call.addBurn (some 0) (some 5) none, Call.setLockStatus (some true)]
    [Call.addBurn (some 0) (some 1) none, Call.shiftOutputs (some 2)]).2.2.2.1 (by decide)

/-! ## Shifting the outputs -/

theorem shiftOutputs_getElem? (t : Tx) (n : Option Int) (i : Nat) :
    (shiftOutputs t n).payments[i]? = t.payments[i]?.map (fun p =>
      { p with output := some (addToOutput p.output (orInt n 1)) }) := by
  simp [shiftOutputs]

theorem toDouble_exact (x : Int) (h : x.natAbs ≤ 9007199254740992) :
    toDouble x = JsNum.num x := by
  simp [toDouble, h]

/-- At `2 ^ 53` the sum with `1` is rounded back to `2 ^ 53`, and from
`2 ^ 53 + 2` the sum with `1` is rounded up to the even mantissa. -/
theorem addToOutput_rounds :
    addToOutput (some (JsNum.num 9007199254740992)) 1 = JsNum.num 9007199254740992 ∧
    addToOutput (some (JsNum.num 9007199254740994)) 1 = JsNum.num 9007199254740996 ∧
    addToOutput (some (JsNum.num (-9007199254740992))) (-1) = JsNum.num (-9007199254740992) := by
  refine ⟨?_, ?_, ?_⟩ <;> decide

/-- Within the integers a double holds exactly, a payment with the integer
output `k` is left with `k` plus the shift, `1` standing for an omitted or
zero argument, and its other fields are kept. -/
theorem shiftOutputs_exact (t : Tx) (n : Option Int) (i : Nat) (p : Payment) (k : Int)
    (hp : t.payments[i]? = some p) (hk : p.output = some (JsNum.num k))
    (hb : (k + orInt n 1).natAbs ≤ 9007199254740992) :
    (shiftOutputs t n).payments[i]?
      = some { p with output := some (JsNum.num (k + orInt n 1)) } := by
  rw [shiftOutputs_getElem?, hp]
  simp only [Option.map_some', hk, addToOutput, toDouble_exact _ hb]

/-- C14 at the failing input: `shiftOutputs(0)` on payments with outputs
`[0,1,2]` leaves the outputs `[1,2,3]`, as `shiftOutputs()` does, and not
`[0,1,2]`; `shiftOutputs(2)` leaves `[2,3,4]`. -/
theorem shiftOutputs_zero_adds_one :
    (shiftOutputs (sampleTx [samplePayment 0 1 0, samplePayment 0 1 1, samplePayment 0 1 2])
        (some 0)).payments.map (fun p => p.output)
      = [some (JsNum.num 1), some (JsNum.num 2), some (JsNum.num 3)] ∧
    (shiftOutputs (sampleTx [samplePayment 0 1 0, samplePayment 0 1 1, samplePayment 0 1 2])
        (some 0)).payments.map (fun p => p.output)
      ≠ [some (JsNum.num 0), some (JsNum.num 1), some (JsNum.num 2)] ∧
    shiftOutputs (sampleTx [samplePayment 0 1 0, samplePayment 0 1 1, samplePayment 0 1 2])
        (some 0)
      = shiftOutputs (sampleTx [samplePayment 0 1 0, samplePayment 0 1 1, samplePayment 0 1 2])
        none ∧
    (shiftOutputs (sampleTx [samplePayment 0 1 0, samplePayment 0 1 1, samplePayment 0 1 2])
        (some 2)).payments.map (fun p => p.output)
      = [some (JsNum.num 2), some (JsNum.num 3), some (JsNum.num 4)] := by
  refine ⟨?_, ?_, ?_, ?_⟩ <;> decide

/-- C15 at the failing input: on a descriptor holding one burn payment,
`shiftOutputs(2)` and `shiftOutputs()` return, but leave the burn payment with
an `output` key holding `NaN`. -/
theorem shiftOutputs_burn_gets_output :
    (addBurn (newTransaction none none) (some 0) (some 5) (some false)).1.payments
      = [{ input := some 0, amount := some 5, percent := some false, burn := some true }] ∧
    (shiftOutputs (addBurn (newTransaction none none) (some 0) (some 5) (some false)).1
        (some 2)).payments
      = [{ input := some 0, amount := some 5, percent := some false, burn := some true,
           output := some JsNum.nan }] ∧
    (shiftOutputs (addBurn (newTransaction none none) (some 0) (some 5) (some false)).1
        none).payments
      = [{ input := some 0, amount := some 5, percent := some false, burn := some true,
           output := some JsNum.nan }] ∧
    (shiftOutputs (addBurn (newTransaction none none) (some 0) (some 5) (some false)).1
        (some 2)).payments
      ≠ (addBurn (newTransaction none none) (some 0) (some 5) (some false)).1.payments := by
  refine ⟨?_, ?_, ?_, ?_⟩ <;> decide

/-! ## The issuance setters -/

/-- C16. `setLockStatus(v)` stores `v` as `lockStatus`, `setAggregationPolicy(p)`
stores `p` as `aggregationPolicy` (`aggregatable` when `p` is omitted); each
sets the type to `issuance` whatever it was and leaves `payments` and every
other field as it was. -/
theorem issuance_setters_spec (t : Tx) (v : Option Bool) (p : Option String) :
    (setLockStatus t v).type = "issuance" ∧
    (setLockStatus t v).lockStatus = v ∧
    setLockStatus t v = { t with lockStatus := v, type := "issuance" } ∧
    { setLockStatus t v with lockStatus := t.lockStatus, type := t.type } = t ∧
    (setAggregationPolicy t p).type = "issuance" ∧
    (setAggregationPolicy t none).aggregationPolicy = "aggregatable" ∧
    (∀ text : String, text ≠ "" →
      (setAggregationPolicy t (some text)).aggregationPolicy = text) ∧
    { setAggregationPolicy t p with aggregationPolicy := t.aggregationPolicy, type := t.type }
      = t ∧
    (setLockStatus t v).payments = t.payments ∧
    (setAggregationPolicy t p).payments = t.payments := by
  refine ⟨rfl, rfl, rfl, rfl, rfl, rfl, ?_, rfl, rfl, rfl⟩
  intro text ht
  simp [setAggregationPolicy, orString, ht]

/-- Witness for C16: the policy `dispersed` set on a burn descriptor. -/
theorem issuance_setters_spec_witness :
    (setAggregationPolicy (addBurn (newTransaction none none) (some 0) (some 5) none).1
      (some "dispersed")).aggregationPolicy = "dispersed" :=
  (issuance_setters_spec (addBurn (newTransaction none none) (some 0) (some 5) none).1 none
    (some "dispersed")).2.2.2.2.2.2.1 "dispersed" (by decide)

/-! ## The shape of payments -/

theorem decodePayment_shape (p : Payment) (c : Nat) : ShapeInvariant (decodePayment p c) := by
  rcases hb : p.burn with _ | _ | _ <;> simp [decodePayment, truthy, hb, ShapeInvariant]

theorem expandLoop_shape (c : Nat) (S : List Payment) :
    (expandLoop c S).all (fun p => decide (ShapeInvariant p)) = true := by
  induction S generalizing c with
  | nil => rfl
  | cons p rest ih =>
    simp only [expandLoop, List.all_cons, Bool.and_eq_true, decide_eq_true_eq]
    exact ⟨decodePayment_shape p c, ih _⟩

/-- C17 at the failing input: every payment `paymentsSkipToInput` returns
has the shape, but the descriptor reached from a fresh one by `addPayment`,
`addBurn`, `shiftOutputs` holds a payment with `burn = true` and an `output`. -/
theorem shape_invariant_broken :
    (∀ S : List Payment,
      (paymentsSkipToInput S).all (fun p => decide (ShapeInvariant p)) = true) ∧
    (run (newTransaction none none)
      [Call.addPayment (some 0) (some 5) (some (JsNum.num 1)) none none,
       Call.addBurn (some 0) (some 3) (some false),
       Call.shiftOutputs none]).payments
      = [{ input := some 0, amount := some 5, output := some (JsNum.num 2),
           range := some false, percent := some false },
         { input := some 0, amount := some 3, percent := some false, burn := some true,
           output := some JsNum.nan }] ∧
    (run (newTransaction none none)
      [Call.addPayment (some 0) (some 5) (some (JsNum.num 1)) none none,
       Call.addBurn (some 0) (some 3) (some false),
       Call.shiftOutputs none]).payments.all (fun p => decide (ShapeInvariant p)) = false := by
  refine ⟨fun S => expandLoop_shape 0 S, by decide, by decide⟩

/-! ## What the expansion loop produces -/

theorem decodePayment_input (p : Payment) (c : Nat) : (decodePayment p c).input = some c := by
  unfold decodePayment
  split <;> rfl

theorem inputOf_decodePayment (p : Payment) (c : Nat) : inputOf (decodePayment p c) = c := by
  simp [inputOf, decodePayment_input]

theorem decodePayment_wellShaped (p : Payment) (c : Nat) : WellShaped (decodePayment p c) := by
  rcases hb : p.burn with _ | _ | _ <;> simp [decodePayment, truthy, hb, WellShaped]

theorem decodePayment_inputIndexed (p : Payment) (c : Nat) (h1 : p.output ≠ some JsNum.nan)
    (h2 : p.output ≠ some JsNum.null) : InputIndexed (decodePayment p c) := by
  rcases hb : p.burn with _ | _ | _ <;> simp [decodePayment, truthy, hb, InputIndexed, h1, h2]

theorem mem_expandLoop {c : Nat} {L : List Payment} {q : Payment} (h : q ∈ expandLoop c L) :
    ∃ p ∈ L, ∃ d, c ≤ d ∧ q = decodePayment p d := by
  induction L generalizing c with
  | nil => simp [expandLoop] at h
  | cons a L ih =>
    simp only [expandLoop, List.mem_cons] at h
    rcases h with rfl | h
    · exact ⟨a, List.mem_cons_self _ _, c, Nat.le_refl _, rfl⟩
    · obtain ⟨p, hp, d, hd, rfl⟩ := ih h
      refine ⟨p, List.mem_cons_of_mem _ hp, d, ?_, rfl⟩
      split at hd <;> omega

/-- The expansion loop started at `c` gives inputs in ascending order that
start at `c` and leave no gap. -/
theorem expandLoop_normal (c : Nat) (L : List Payment) :
    SortedByInput (expandLoop c L) ∧
    (∀ p ∈ expandLoop c L, c ≤ inputOf p) ∧
    (∀ p ∈ expandLoop c L, ∀ m, c ≤ m → m < inputOf p → ∃ q ∈ expandLoop c L, inputOf q = m) := by
  have hge : ∀ (c : Nat) (L : List Payment), ∀ p ∈ expandLoop c L, c ≤ inputOf p := by
    intro c L p hp
    obtain ⟨a, -, d, hd, rfl⟩ := mem_expandLoop hp
    rw [inputOf_decodePayment]
    exact hd
  induction L generalizing c with
  | nil => exact ⟨List.Pairwise.nil, fun p hp => by simp [expandLoop] at hp,
      fun p hp => by simp [expandLoop] at hp⟩
  | cons a L ih =>
    obtain ⟨ih1, -, ih3⟩ := ih (if truthy a.skip then c + 1 else c)
    have hstep : c ≤ (if truthy a.skip then c + 1 else c) := by split <;> omega
    have hstep2 : (if truthy a.skip then c + 1 else c) ≤ c + 1 := by split <;> omega
    refine ⟨?_, hge c (a :: L), ?_⟩
    · simp only [expandLoop]
      refine List.pairwise_cons.mpr ⟨?_, ih1⟩
      intro q hq
      rw [inputOf_decodePayment]
      exact Nat.le_trans hstep (hge _ L q hq)
    · intro p hp m hm1 hm2
      simp only [expandLoop, List.mem_cons] at hp ⊢
      rcases hp with rfl | hp
      · rw [inputOf_decodePayment] at hm2
        omega
      · by_cases hmc : m = c
        · exact ⟨decodePayment a c, Or.inl rfl, by rw [inputOf_decodePayment, hmc]⟩
        · obtain ⟨q, hq, hqm⟩ := ih3 p hp m (by omega) hm2
          exact ⟨q, Or.inr hq, hqm⟩

theorem mem_skipLoop {X : List Payment} {p : Payment} (h : p ∈ skipLoop X) :
    ∃ x ∈ X, ∃ b : Bool, p = { x with input := none, skip := some b } := by
  induction X with
  | nil => simp [skipLoop] at h
  | cons a X ih =>
    simp only [skipLoop, List.mem_cons] at h
    rcases h with rfl | h
    · exact ⟨a, List.mem_cons_self _ _, _, rfl⟩
    · obtain ⟨x, hx, b, rfl⟩ := ih h
      exact ⟨x, List.mem_cons_of_mem _ hx, b, rfl⟩

/-- The normalisation of input-indexed payments is of the input-indexed form
and built shape, in ascending input order, with inputs `0, ..., k - 1`. -/
theorem normalise_normal (P : List Payment) (hP : ∀ p ∈ P, InputIndexed p) :
    (∀ p ∈ normalise P, InputIndexed p ∧ WellShaped p) ∧ SortedByInput (normalise P) ∧
      DenseInputs (normalise P) := by
  obtain ⟨h1, -, h3⟩ := expandLoop_normal 0 (paymentsInputToSkip P)
  refine ⟨?_, h1, fun p hp m hm => h3 p hp m (Nat.zero_le _) hm⟩
  intro q hq
  obtain ⟨p, hp, d, -, rfl⟩ := mem_expandLoop hq
  refine ⟨?_, decodePayment_wellShaped p d⟩
  rw [paymentsInputToSkip, map_jsonClone_of_inputIndexed P hP] at hp
  obtain ⟨x, hx, b, rfl⟩ := mem_skipLoop hp
  have hx2 := hP x (mem_sortByInput.mp hx)
  exact decodePayment_inputIndexed _ d hx2.2.2.1 hx2.2.2.2

theorem encode_ok_fst (c : Codecs) (t : Tx) (bytes : List Nat)
    (h : (encode c t).2 = Except.ok bytes) :
    (encode c t).1 = { t with payments := normalise t.payments } := by
  unfold encode at h ⊢
  cases ho : opCodeOf t.type with
  | none =>
    simp only [ho] at h
    split at h <;> simp at h
  | some op =>
    simp only [ho] at h ⊢
    cases he : (c.get op.encoder).encode
        { t with payments := paymentsInputToSkip t.payments } MAXBYTESIZE with
    | error e => simp [he] at h
    | ok r => rfl

/-! ## The dense rank -/

theorem distinctBelow_perm {l1 l2 : List Payment} (h : l1.Perm l2) (n : Nat) :
    distinctBelow l1 n = distinctBelow l2 n := by
  unfold distinctBelow
  exact (((h.map inputOf).dedup).filter _).length_eq

theorem distinctBelow_cons_of_mem (p : Payment) (l : List Payment) (n : Nat)
    (h : inputOf p ∈ l.map inputOf) : distinctBelow (p :: l) n = distinctBelow l n := by
  simp only [distinctBelow, List.map_cons, List.dedup_cons_of_mem h]

theorem distinctBelow_cons_of_not_mem (p : Payment) (l : List Payment) (n : Nat)
    (h : inputOf p ∉ l.map inputOf) :
    distinctBelow (p :: l) n = distinctBelow l n + (if inputOf p < n then 1 else 0) := by
  simp only [distinctBelow, List.map_cons, List.dedup_cons_of_not_mem h, List.filter_cons]
  by_cases hlt : inputOf p < n <;> simp [hlt]

theorem distinctBelow_eq_zero (l : List Payment) (n : Nat) (h : ∀ q ∈ l, n ≤ inputOf q) :
    distinctBelow l n = 0 := by
  unfold distinctBelow
  rw [List.length_eq_zero, List.filter_eq_nil_iff]
  intro a ha
  obtain ⟨q, hq, rfl⟩ := List.mem_map.mp (List.mem_dedup.mp ha)
  have := h q hq
  simp only [decide_eq_true_eq]
  omega

/-- When as many distinct inputs lie below `n` as there are numbers below `n`,
every number below `n` is an input. -/
theorem mem_of_distinctBelow_eq (l : List Payment) (n : Nat) (h : distinctBelow l n = n)
    (m : Nat) (hm : m < n) : ∃ q ∈ l, inputOf q = m := by
  have hnd : ((l.map inputOf).dedup.filter (fun m => decide (m < n))).Nodup :=
    List.Nodup.filter _ (List.nodup_dedup _)
  have hsub : ((l.map inputOf).dedup.filter (fun m => decide (m < n))).toFinset
      ⊆ Finset.range n := by
    intro x hx
    have := (List.mem_filter.mp (List.mem_toFinset.mp hx)).2
    simpa using this
  have hcard : (Finset.range n).card
      ≤ ((l.map inputOf).dedup.filter (fun m => decide (m < n))).toFinset.card := by
    rw [List.toFinset_card_of_nodup hnd, Finset.card_range]
    exact Nat.le_of_eq h.symm
  have heq := Finset.eq_of_subset_of_card_le hsub hcard
  have hmem : m ∈ ((l.map inputOf).dedup.filter (fun m => decide (m < n))).toFinset := by
    rw [heq]
    exact Finset.mem_range.mpr hm
  have h1 := (List.mem_filter.mp (List.mem_toFinset.mp hmem)).1
  obtain ⟨q, hq, hqm⟩ := List.mem_map.mp (List.mem_dedup.mp h1)
  exact ⟨q, hq, hqm⟩

theorem map_eq_self_mem {f : Payment → Payment} {l : List Payment} (h : l.map f = l) :
    ∀ x ∈ l, f x = x := by
  induction l with
  | nil => intro x hx; cases hx
  | cons a l ih =>
    rw [List.map_cons] at h
    have h1 := List.cons.inj h
    intro x hx
    rcases List.mem_cons.mp hx with rfl | hx2
    · exact h1.1
    · exact ih h1.2 x hx2

/-- The inputs in use are `0, ..., k - 1` for some `k` exactly when every index
below one in use is in use. -/
theorem denseInputs_iff (P : List Payment) :
    DenseInputs P ↔ ∃ k, ∀ n, (∃ p ∈ P, inputOf p = n) ↔ n < k := by
  constructor
  · intro hd
    cases P with
    | nil => exact ⟨0, fun n => by simp⟩
    | cons a l =>
      have hne : ((a :: l).map inputOf).toFinset.Nonempty :=
        ⟨inputOf a, by simp⟩
      have hmax := Finset.max'_mem _ hne
      obtain ⟨q, hq, hqm⟩ := List.mem_map.mp (List.mem_toFinset.mp hmax)
      refine ⟨((a :: l).map inputOf).toFinset.max' hne + 1, fun n => ⟨?_, ?_⟩⟩
      · rintro ⟨p, hp, rfl⟩
        have := Finset.le_max' ((a :: l).map inputOf).toFinset (inputOf p)
          (List.mem_toFinset.mpr (List.mem_map_of_mem _ hp))
        omega
      · intro hn
        by_cases hnq : n = inputOf q
        · exact ⟨q, hq, hnq.symm⟩
        · exact hd q hq n (by omega)
  · rintro ⟨k, hk⟩ p hp m hm
    have h1 := (hk (inputOf p)).mp ⟨p, hp, rfl⟩
    exact (hk m).mpr (by omega)

theorem decodePayment_strip_input (p : Payment) (c : Nat) (b : Bool) (hs : p.skip = none)
    (hw : WellShaped p) :
    decodePayment { p with input := none, skip := some b } c = { p with input := some c } := by
  rcases p with ⟨i, a, o, r, pc, bn, s⟩
  simp only at hs
  subst hs
  rcases hw with ⟨h1, h2, h3⟩ | h1
  · simp only at h1 h2 h3
    subst h1 h2 h3
    rfl
  · simp only at h1
    subst h1
    rfl

theorem next_counter (p q : Payment) (c : Nat) (hp : p.input ≠ none) (hq : q.input ≠ none) :
    (if truthy (some (jsGt q.input p.input)) = true then c + 1 else c)
      = if inputOf p < inputOf q then c + 1 else c := by
  rw [jsGt_eq_decide hp hq]
  by_cases h : inputOf p < inputOf q <;> simp [truthy, h]

/-- On payments in ascending input order the expansion loop started at `c`
rebuilds each input as `c` plus the number of distinct inputs below it. -/
theorem expandLoop_skipLoop_rank (S : List Payment) (c : Nat)
    (hwf : ∀ p ∈ S, InputIndexed p ∧ WellShaped p) (hs : SortedByInput S) :
    expandLoop c (skipLoop S)
      = S.map (fun p => { p with input := some (c + distinctBelow S (inputOf p)) }) := by
  induction S generalizing c with
  | nil => rfl
  | cons p rest ih =>
    have hs2 := List.pairwise_cons.mp hs
    have hpm : p ∈ p :: rest := List.mem_cons_self _ _
    have h0 : distinctBelow (p :: rest) (inputOf p) = 0 := by
      apply distinctBelow_eq_zero
      intro q hq
      rcases List.mem_cons.mp hq with rfl | hq2
      · exact Nat.le_refl _
      · exact hs2.1 q hq2
    cases rest with
    | nil =>
      simp only [skipLoop, expandLoop, List.map_cons, List.map_nil]
      rw [decodePayment_strip_input p c _ (hwf p hpm).1.2.1 (hwf p hpm).2, h0]
      rfl
    | cons q rest2 =>
      have hqm : q ∈ p :: q :: rest2 := List.mem_cons_of_mem _ (List.mem_cons_self _ _)
      have hpq : inputOf p ≤ inputOf q := hs2.1 q (List.mem_cons_self _ _)
      have hs3 := List.pairwise_cons.mp hs2.2
      have hqle : ∀ r ∈ q :: rest2, inputOf q ≤ inputOf r := by
        intro r hr
        rcases List.mem_cons.mp hr with rfl | hr2
        · exact Nat.le_refl _
        · exact hs3.1 r hr2
      have hrec := ih (if inputOf p < inputOf q then c + 1 else c)
        (fun x hx => hwf x (List.mem_cons_of_mem _ hx)) hs2.2
      rw [List.map_cons, h0, Nat.add_zero]
      rw [show skipLoop (p :: q :: rest2)
          = { p with input := none, skip := some (jsGt q.input p.input) }
            :: skipLoop (q :: rest2) from rfl]
      rw [expandLoop, decodePayment_strip_input p c _ (hwf p hpm).1.2.1 (hwf p hpm).2]
      congr 1
      show expandLoop (if truthy (some (jsGt q.input p.input)) = true then c + 1 else c)
        (skipLoop (q :: rest2)) = _
      rw [next_counter p q c (hwf p hpm).1.1 (hwf q hqm).1.1, hrec]
      apply List.map_congr_left
      intro r hr
      have hqr := hqle r hr
      by_cases hlt : inputOf p < inputOf q
      · have hnm : inputOf p ∉ (q :: rest2).map inputOf := by
          intro hmem
          obtain ⟨x, hx, hxe⟩ := List.mem_map.mp hmem
          have := hqle x hx
          omega
        have hpr : inputOf p < inputOf r := by omega
        rw [distinctBelow_cons_of_not_mem p _ _ hnm]
        simp only [hlt, hpr, if_true]
        congr 2
        omega
      · have hm : inputOf p ∈ (q :: rest2).map inputOf :=
          List.mem_map.mpr ⟨q, List.mem_cons_self _ _, by omega⟩
        rw [distinctBelow_cons_of_mem p _ _ hm]
        simp only [hlt, if_false]

/-- The normalisation as the sorted payments with re-ranked inputs. -/
theorem normalise_eq_rank (P : List Payment) (hwf : ∀ p ∈ P, InputIndexed p ∧ WellShaped p) :
    normalise P
      = (sortByInput P).map (fun p => { p with input := some (distinctBelow P (inputOf p)) }) := by
  rw [normalise, paymentsInputToSkip,
    map_jsonClone_of_inputIndexed P (fun p hp => (hwf p hp).1), paymentsSkipToInput,
    expandLoop_skipLoop_rank _ 0 (fun p hp => hwf p (mem_sortByInput.mp hp))
      (sortByInput_sorted P (fun p hp => (hwf p hp).1.1))]
  apply List.map_congr_left
  intro p _
  rw [Nat.zero_add, distinctBelow_perm (sortByInput_perm P)]

theorem normalise_eq_sorted_iff (P : List Payment)
    (hwf : ∀ p ∈ P, InputIndexed p ∧ WellShaped p) :
    normalise P = sortByInput P ↔ DenseInputs P := by
  constructor
  · intro h
    rw [normalise_eq_rank P hwf] at h
    intro p hp m hm
    have hfix := map_eq_self_mem h p (mem_sortByInput.mpr hp)
    have hin : p.input = some (distinctBelow P (inputOf p)) := by
      have := congrArg Payment.input hfix
      exact this.symm
    have heq : distinctBelow P (inputOf p) = inputOf p := (inputOf_eq_of_input hin).symm
    exact mem_of_distinctBelow_eq P (inputOf p) heq m hm
  · intro hd
    rw [normalise, paymentsInputToSkip,
      map_jsonClone_of_inputIndexed P (fun p hp => (hwf p hp).1), paymentsSkipToInput]
    refine expandLoop_skipLoop _ 0 (fun p hp => hwf p (mem_sortByInput.mp hp))
      (sortByInput_sorted P (fun p hp => (hwf p hp).1.1)) (fun _ _ => Nat.zero_le _) ?_
    intro p hp m _ hm
    obtain ⟨q, hq, hqm⟩ := hd p (mem_sortByInput.mp hp) m hm
    exact ⟨q, mem_sortByInput.mpr hq, hqm⟩

/-- C18. For input-indexed payments `P` of the built shape, expansion after
compaction gives `P` stably sorted by input (a permutation of `P` in ascending
input order that keeps payments of equal input in their order) with each input
replaced by the number of distinct inputs of `P` strictly below it; so it gives
the sorted `P` itself exactly when the inputs in use are `0, ..., k - 1` for
some `k`. -/
theorem expand_compact_dense_rank (P : List Payment)
    (hwf : ∀ p ∈ P, InputIndexed p ∧ WellShaped p) :
    paymentsSkipToInput (paymentsInputToSkip P)
      = (sortByInput P).map
          (fun p => { p with input := some (distinctBelow P (inputOf p)) }) ∧
    (sortByInput P).Perm P ∧ SortedByInput (sortByInput P) ∧
    (∀ n, (sortByInput P).filter (fun p => decide (inputOf p = n))
      = P.filter (fun p => decide (inputOf p = n))) ∧
    (paymentsSkipToInput (paymentsInputToSkip P) = sortByInput P ↔
      ∃ k, ∀ n, (∃ p ∈ P, inputOf p = n) ↔ n < k) :=
  ⟨normalise_eq_rank P hwf, sortByInput_perm P,
    sortByInput_sorted P (fun p hp => (hwf p hp).1.1), sortByInput_filter P,
    (normalise_eq_sorted_iff P hwf).trans (denseInputs_iff P)⟩

/-- Witness for C18: inputs `3, 1, 3` come back as `0, 1, 1`. -/
theorem expand_compact_dense_rank_witness :
    paymentsSkipToInput (paymentsInputToSkip
        [samplePayment 3 5 0, samplePayment 1 7 1, samplePayment 3 2 2])
      = (sortByInput [samplePayment 3 5 0, samplePayment 1 7 1, samplePayment 3 2 2]).map
          (fun p => { p with input := some (distinctBelow
            [samplePayment 3 5 0, samplePayment 1 7 1, samplePayment 3 2 2] (inputOf p)) }) :=
  (expand_compact_dense_rank [samplePayment 3 5 0, samplePayment 1 7 1, samplePayment 3 2 2]
    (by decide)).1

/-! ## Round trip on the wire side -/

theorem strip_decodePayment (p : Payment) (c : Nat) (b : Bool) (hi : p.input = none)
    (hw : WellShaped p) :
    { decodePayment p c with input := none, skip := some b } = { p with skip := some b } := by
  rcases p with ⟨i, a, o, r, pc, bn, s⟩
  simp only at hi
  subst hi
  rcases hw with ⟨h1, h2, h3⟩ | h1
  · simp only at h1 h2 h3
    subst h1 h2 h3
    rfl
  · simp only at h1
    subst h1
    rfl

/-- The skip loop undoes the expansion loop up to the last flag. -/
theorem skipLoop_expandLoop (S : List Payment) (c : Nat)
    (hwf : ∀ p ∈ S, SkipForm p ∧ WellShaped p) :
    skipLoop (expandLoop c S) = withLastSkipFalse S := by
  induction S generalizing c with
  | nil => rfl
  | cons p rest ih =>
    have hp := hwf p (List.mem_cons_self _ _)
    cases rest with
    | nil =>
      simp only [expandLoop, skipLoop, withLastSkipFalse]
      rw [strip_decodePayment p c false hp.1.1 hp.2]
    | cons q rest2 =>
      have hrec := ih (if truthy p.skip then c + 1 else c)
        (fun x hx => hwf x (List.mem_cons_of_mem _ hx))
      rw [withLastSkipFalse, ← hrec]
      simp only [expandLoop, skipLoop, decodePayment_input]
      congr 1
      rw [strip_decodePayment p c _ hp.1.1 hp.2]
      rcases p with ⟨i, a, o, r, pc, bn, s⟩
      have hs : s ≠ none := hp.1.2.1
      rcases s with _ | _ | _
      · exact absurd rfl hs
      · simp [truthy, jsGt]
      · simp [truthy, jsGt]

theorem withLastSkipFalse_eq_self (S : List Payment) :
    withLastSkipFalse S = S ↔ (S = [] ∨ ∃ p, S.getLast? = some p ∧ p.skip = some false) := by
  induction S with
  | nil => simp [withLastSkipFalse]
  | cons p rest ih =>
    cases rest with
    | nil =>
      rcases p with ⟨i, a, o, r, pc, bn, s⟩
      simp [withLastSkipFalse]
      exact eq_comm
    | cons q rest2 =>
      rw [withLastSkipFalse]
      simp only [List.cons.injEq, true_and, reduceCtorEq, false_or, List.getLast?_cons_cons]
      rw [ih]
      simp

/-- C19. For run-skip payments of the built shape (a boolean `skip`, no input,
`burn = true` alone or no `burn`), compaction after expansion gives the
sequence back with the `skip` of its last payment set to `false`; so it gives
the sequence itself exactly when the sequence is empty or its last payment has
`skip = false`. -/
theorem compact_expand (S : List Payment) (hwf : ∀ p ∈ S, SkipForm p ∧ WellShaped p) :
    paymentsInputToSkip (paymentsSkipToInput S) = withLastSkipFalse S ∧
    (paymentsInputToSkip (paymentsSkipToInput S) = S ↔
      (S = [] ∨ ∃ p, S.getLast? = some p ∧ p.skip = some false)) := by
  have key : paymentsInputToSkip (paymentsSkipToInput S) = withLastSkipFalse S := by
    have hii : ∀ q ∈ expandLoop 0 S, InputIndexed q := by
      intro q hq
      obtain ⟨p, hp, d, -, rfl⟩ := mem_expandLoop hq
      exact decodePayment_inputIndexed p d (hwf p hp).1.2.2.1 (hwf p hp).1.2.2.2
    rw [paymentsInputToSkip, paymentsSkipToInput, map_jsonClone_of_inputIndexed _ hii,
      sortByInput_of_sorted _ (expandLoop_normal 0 S).1]
    exact skipLoop_expandLoop S 0 hwf
  exact ⟨key, by rw [key]; exact withLastSkipFalse_eq_self S⟩

/-- Witness for C19: a sequence ending in `skip = true` comes back with that
flag `false`. -/
theorem compact_expand_witness :
    paymentsInputToSkip (paymentsSkipToInput
        [{ amount := some 5, output := some (JsNum.num 1), range := some false,
           percent := some false, skip := some true },
         { amount := some 7, percent := some false, burn := some true, skip := some true }])
      = withLastSkipFalse
        [{ amount := some 5, output := some (JsNum.num 1), range := some false,
           percent := some false, skip := some true },
         { amount := some 7, percent := some false, burn := some true, skip := some true }] :=
  (compact_expand _ (by decide)).1

/-! ## The normalisation is idempotent -/

/-- C20. For input-indexed payments `P`, normalising the normalisation of `P`
gives the normalisation of `P`; so a second successful `encode` leaves the
descriptor, its payments included, exactly as the first one left it. -/
theorem normalise_idempotent (P : List Payment) (hP : ∀ p ∈ P, InputIndexed p) :
    paymentsSkipToInput (paymentsInputToSkip (paymentsSkipToInput (paymentsInputToSkip P)))
      = paymentsSkipToInput (paymentsInputToSkip P) ∧
    (∀ (c : Codecs) (t : Tx) (b1 b2 : List Nat), t.payments = P →
      (encode c t).2 = Except.ok b1 → (encode c (encode c t).1).2 = Except.ok b2 →
      (encode c (encode c t).1).1 = (encode c t).1) := by
  obtain ⟨h1, h2, h3⟩ := normalise_normal P hP
  have key : normalise (normalise P) = normalise P := expand_compact_of_normal _ h1 h2 h3
  refine ⟨key, ?_⟩
  intro c t b1 b2 ht he1 he2
  rw [encode_ok_fst c _ b2 he2, encode_ok_fst c t b1 he1]
  simp only [ht, key]

/-- Witness for C20: payments with inputs `3, 1, 3`. -/
theorem normalise_idempotent_witness :
    paymentsSkipToInput (paymentsInputToSkip (paymentsSkipToInput (paymentsInputToSkip
        [samplePayment 3 5 0, samplePayment 1 7 1, samplePayment 3 2 2])))
      = paymentsSkipToInput (paymentsInputToSkip
        [samplePayment 3 5 0, samplePayment 1 7 1, samplePayment 3 2 2]) :=
  (normalise_idempotent [samplePayment 3 5 0, samplePayment 1 7 1, samplePayment 3 2 2]
    (by decide)).1

end Transaction
